import Mathlib

/-!
# Verification of the ReaDis chunked text-to-speech and extraction pipeline

This file gives a shallow embedding, over `List Char` strings and `Nat`
arithmetic, of the core algorithms of the ReaDis repository:

* `chunkTextForSpeech` from `src/hooks/useSpeechSynthesis.ts` (the speech
  chunking algorithm),
* the speech playback engine state machine from the same hook
  (`startReading`, `pauseReading`, `resumeReading`, `stopReading`, the
  settings-change effect, and the utterance callbacks),
* the per-page processors of the extraction pipeline
  (`extractFromPDF`'s direct loop from `src/hooks/useContentExtraction.ts`,
  `ChunkedFileProcessor.processPdfPageRange`/`processPdfInChunks`, and the
  worker's page loop from `src/workers/fileProcessor.worker.ts`),
* the content-addressed `FileCache` (`src/utils/fileCache.ts`) and the
  cache-first control flow of `extractFromPDF`.

JavaScript strings are modelled as `List Char` (one element per UTF-16 code
unit as far as the claims are concerned), JavaScript numbers used as indices
and sizes as `Nat`/`Int`.  Comparisons of the form `x > i + N * 0.5` on
doubles are exact for the integer magnitudes involved (below 2^52), so they
are embedded as the exact rational comparison `2*x > 2*i + N`.
-/

namespace ReaDis

/-! ## JavaScript string primitives -/

/-- The set of characters removed by JavaScript `String.prototype.trim`:
ECMAScript WhiteSpace (TAB, VT, FF, SP, NBSP, ZWNBSP and the Unicode
space-separator category) and LineTerminator (LF, CR, LS, PS). -/
def isJsWhitespace (c : Char) : Bool :=
  c.toNat = 0x9 || c.toNat = 0xA || c.toNat = 0xB || c.toNat = 0xC ||
  c.toNat = 0xD || c.toNat = 0x20 || c.toNat = 0xA0 || c.toNat = 0x1680 ||
  (0x2000 ≤ c.toNat && c.toNat ≤ 0x200A) ||
  c.toNat = 0x2028 || c.toNat = 0x2029 || c.toNat = 0x202F ||
  c.toNat = 0x205F || c.toNat = 0x3000 || c.toNat = 0xFEFF

/-- JavaScript `s.trim()`: remove leading and trailing whitespace. -/
def jsTrim (s : List Char) : List Char :=
  ((s.dropWhile isJsWhitespace).reverse.dropWhile isJsWhitespace).reverse

/-- JavaScript `text.slice(a, b)` for `a ≤ b` within bounds. -/
def jsSlice (text : List Char) (a b : Nat) : List Char :=
  (text.drop a).take (b - a)

/-- JavaScript `text.lastIndexOf(c, fromIdx)` for a single-character search
string: the largest index `i ≤ fromIdx` with `text[i] = c`, or `-1`. -/
def jsLastIndexOf (text : List Char) (c : Char) (fromIdx : Nat) : Int :=
  match ((List.range (min (fromIdx + 1) text.length)).filter
      (fun i => text.get? i = some c)).getLast? with
  | some i => (i : Int)
  | none => -1

/-! ### Lemmas about the string primitives -/

theorem dropWhile_sublist (p : Char → Bool) (l : List Char) :
    (l.dropWhile p).Sublist l := by
  induction l with
  | nil => simp
  | cons a l ih =>
    by_cases h : p a
    · simpa [List.dropWhile, h] using ih.trans (List.sublist_cons_self a l)
    · simp [List.dropWhile, h]

theorem jsTrim_sublist (s : List Char) : (jsTrim s).Sublist s := by
  unfold jsTrim
  have h1 : ((s.dropWhile isJsWhitespace).reverse.dropWhile
      isJsWhitespace).Sublist (s.dropWhile isJsWhitespace).reverse :=
    dropWhile_sublist _ _
  have h2 := h1.reverse
  simp only [List.reverse_reverse] at h2
  exact h2.trans (dropWhile_sublist _ _)

theorem filter_dropWhile (p q : Char → Bool) (l : List Char)
    (h : ∀ c, q c = true → p c = false) :
    (l.dropWhile q).filter p = l.filter p := by
  induction l with
  | nil => simp
  | cons a l ih =>
    by_cases hq : q a
    · simp [List.dropWhile, hq, List.filter, h a hq, ih]
    · simp [List.dropWhile, hq]

theorem jsTrim_filter (p : Char → Bool) (s : List Char)
    (h : ∀ c, isJsWhitespace c = true → p c = false) :
    (jsTrim s).filter p = s.filter p := by
  unfold jsTrim
  rw [List.filter_reverse, filter_dropWhile p isJsWhitespace _ h,
    List.filter_reverse, List.reverse_reverse,
    filter_dropWhile p isJsWhitespace _ h]

theorem jsTrim_length_le (s : List Char) : (jsTrim s).length ≤ s.length :=
  (jsTrim_sublist s).length_le

theorem jsTrim_eq_of_length (s : List Char)
    (h : (jsTrim s).length = s.length) : jsTrim s = s :=
  (jsTrim_sublist s).eq_of_length h

theorem mem_of_getLast?_eq {α : Type} {l : List α} {x : α}
    (h : l.getLast? = some x) : x ∈ l := by
  have hx : x ∈ l.getLast? := by rw [h]; rfl
  obtain ⟨hne, hEq⟩ := List.mem_getLast?_eq_getLast hx
  rw [hEq]
  exact List.getLast_mem hne

theorem jsLastIndexOf_le (text : List Char) (c : Char) (fromIdx : Nat) :
    jsLastIndexOf text c fromIdx ≤ (fromIdx : Int) := by
  unfold jsLastIndexOf
  cases hl : ((List.range (min (fromIdx + 1) text.length)).filter
      (fun i => text.get? i = some c)).getLast? with
  | none =>
    have : (-1 : Int) ≤ (fromIdx : Int) := by omega
    simpa using this
  | some i =>
    have hmem := mem_of_getLast?_eq hl
    have := (List.mem_filter.mp hmem).1
    have hlt := List.mem_range.mp this
    have hle : i < fromIdx + 1 := lt_of_lt_of_le hlt (min_le_left _ _)
    have : (i : Int) ≤ (fromIdx : Int) := by exact_mod_cast Nat.lt_succ_iff.mp hle
    simpa using this

theorem jsLastIndexOf_lt_length (text : List Char) (c : Char) (fromIdx : Nat)
    (h : 0 ≤ jsLastIndexOf text c fromIdx) :
    jsLastIndexOf text c fromIdx < (text.length : Int) := by
  unfold jsLastIndexOf at h ⊢
  cases hl : ((List.range (min (fromIdx + 1) text.length)).filter
      (fun i => text.get? i = some c)).getLast? with
  | none => rw [hl] at h; simp at h
  | some i =>
    have hmem := mem_of_getLast?_eq hl
    have := (List.mem_filter.mp hmem).1
    have hlt := List.mem_range.mp this
    have hle : i < text.length := lt_of_lt_of_le hlt (min_le_right _ _)
    have : (i : Int) < (text.length : Int) := by exact_mod_cast hle
    simpa using this

theorem jsLastIndexOf_get (text : List Char) (c : Char) (fromIdx : Nat)
    (h : 0 ≤ jsLastIndexOf text c fromIdx) :
    text.get? (jsLastIndexOf text c fromIdx).toNat = some c := by
  unfold jsLastIndexOf at h ⊢
  cases hl : ((List.range (min (fromIdx + 1) text.length)).filter
      (fun i => text.get? i = some c)).getLast? with
  | none => rw [hl] at h; simp at h
  | some i =>
    have hmem := mem_of_getLast?_eq hl
    have := (List.mem_filter.mp hmem).2
    simpa using this

/-! ## The speech chunking algorithm (`chunkTextForSpeech`)

Embedding of `chunkTextForSpeech(text, maxChunkSize)` from
`src/hooks/useSpeechSynthesis.ts` (lines 50-84).  One iteration of the
`while (currentIndex < text.length)` loop computes the cut position
`chunkEnd` (`chunkStep`), pushes `text.slice(currentIndex, chunkEnd).trim()`
and continues from `chunkEnd`.  The loop body advances `currentIndex` by at
least one position whenever `maxChunkSize ≥ 1` (see `chunkStep_progress`),
so the loop runs at most `text.length` iterations; `chunkLoopF` makes this
explicit with a fuel argument that the top-level call instantiates with
`text.length`, which never runs out for a positive chunk size. -/

/-- A sentence terminator as used by the chunking algorithm. -/
def isSentenceTerminator (c : Char) : Bool := c = '.' || c = '?' || c = '!'

/-- `Math.max(sentenceBreak, Math.max? ...)` — the source computes
`Math.max(sentenceBreak, questionBreak, exclamationBreak)` where each break
is `text.lastIndexOf(⋯, chunkEnd)` with `chunkEnd = min(i + N, text.length)`. -/
def chunkBestBreak (text : List Char) (N i : Nat) : Int :=
  max (jsLastIndexOf text '.' (min (i + N) text.length))
    (max (jsLastIndexOf text '?' (min (i + N) text.length))
      (jsLastIndexOf text '!' (min (i + N) text.length)))

/-- One iteration of the chunking loop: from `currentIndex = i`, the cut
position (`chunkEnd` after adjustment) for the next chunk.
`bestBreak > currentIndex + maxChunkSize*0.5` is embedded exactly as
`2*bestBreak > 2*i + N`. -/
def chunkStep (text : List Char) (N i : Nat) : Nat :=
  if min (i + N) text.length < text.length then
    if 2 * chunkBestBreak text N i > 2 * (i : Int) + (N : Int) then
      (chunkBestBreak text N i + 1).toNat
    else if 2 * jsLastIndexOf text ' ' (min (i + N) text.length) >
        2 * (i : Int) + (N : Int) then
      (jsLastIndexOf text ' ' (min (i + N) text.length)).toNat
    else min (i + N) text.length
  else min (i + N) text.length

theorem chunkBestBreak_le (text : List Char) (N i : Nat) :
    chunkBestBreak text N i ≤ ((min (i + N) text.length : Nat) : Int) := by
  unfold chunkBestBreak
  have h1 := jsLastIndexOf_le text '.' (min (i + N) text.length)
  have h2 := jsLastIndexOf_le text '?' (min (i + N) text.length)
  have h3 := jsLastIndexOf_le text '!' (min (i + N) text.length)
  omega

theorem chunkBestBreak_lt_length (text : List Char) (N i : Nat)
    (h : 0 ≤ chunkBestBreak text N i) :
    chunkBestBreak text N i < (text.length : Int) := by
  unfold chunkBestBreak at h ⊢
  have h1 := jsLastIndexOf_lt_length text '.' (min (i + N) text.length)
  have h2 := jsLastIndexOf_lt_length text '?' (min (i + N) text.length)
  have h3 := jsLastIndexOf_lt_length text '!' (min (i + N) text.length)
  rcases max_cases (jsLastIndexOf text '.' (min (i + N) text.length))
      (max (jsLastIndexOf text '?' (min (i + N) text.length))
        (jsLastIndexOf text '!' (min (i + N) text.length))) with
    ⟨hc, _⟩ | ⟨hc, _⟩
  · rw [hc] at h ⊢; exact h1 h
  · rw [hc] at h ⊢
    rcases max_cases (jsLastIndexOf text '?' (min (i + N) text.length))
        (jsLastIndexOf text '!' (min (i + N) text.length)) with
      ⟨hc2, _⟩ | ⟨hc2, _⟩
    · rw [hc2] at h ⊢; exact h2 h
    · rw [hc2] at h ⊢; exact h3 h

theorem chunkBestBreak_get (text : List Char) (N i : Nat)
    (h : 0 ≤ chunkBestBreak text N i) :
    ∃ t, text.get? (chunkBestBreak text N i).toNat = some t ∧
      isSentenceTerminator t = true := by
  unfold chunkBestBreak at h ⊢
  rcases max_cases (jsLastIndexOf text '.' (min (i + N) text.length))
      (max (jsLastIndexOf text '?' (min (i + N) text.length))
        (jsLastIndexOf text '!' (min (i + N) text.length))) with
    ⟨hc, _⟩ | ⟨hc, _⟩
  · rw [hc] at h ⊢
    exact ⟨'.', jsLastIndexOf_get text '.' _ h, by decide⟩
  · rw [hc] at h ⊢
    rcases max_cases (jsLastIndexOf text '?' (min (i + N) text.length))
        (jsLastIndexOf text '!' (min (i + N) text.length)) with
      ⟨hc2, _⟩ | ⟨hc2, _⟩
    · rw [hc2] at h ⊢
      exact ⟨'?', jsLastIndexOf_get text '?' _ h, by decide⟩
    · rw [hc2] at h ⊢
      exact ⟨'!', jsLastIndexOf_get text '!' _ h, by decide⟩

theorem chunkStep_progress (text : List Char) (N i : Nat)
    (hN : 0 < N) (hi : i < text.length) :
    i < chunkStep text N i ∧ chunkStep text N i ≤ text.length := by
  unfold chunkStep
  by_cases hce : min (i + N) text.length < text.length
  · rw [if_pos hce]
    by_cases hbb : 2 * chunkBestBreak text N i > 2 * (i : Int) + (N : Int)
    · rw [if_pos hbb]
      have hnonneg : 0 ≤ chunkBestBreak text N i := by omega
      have hlt := chunkBestBreak_lt_length text N i hnonneg
      omega
    · rw [if_neg hbb]
      by_cases hwb : 2 * jsLastIndexOf text ' ' (min (i + N) text.length) >
          2 * (i : Int) + (N : Int)
      · rw [if_pos hwb]
        have hlt := jsLastIndexOf_lt_length text ' ' (min (i + N) text.length)
          (by omega)
        omega
      · rw [if_neg hwb]
        omega
  · rw [if_neg hce]
    omega

/-- The chunking loop, with explicit fuel (the loop in the source runs at
most `text.length` iterations for a positive `maxChunkSize`, see
`chunkStep_progress`; the top level supplies `text.length` fuel). -/
def chunkLoopF : Nat → List Char → Nat → Nat → List (List Char)
  | 0, _, _, _ => []
  | fuel + 1, text, N, i =>
    if i < text.length then
      jsTrim (jsSlice text i (chunkStep text N i)) ::
        chunkLoopF fuel text N (chunkStep text N i)
    else []

/-- `chunkTextForSpeech(text, maxChunkSize)` from
`src/hooks/useSpeechSynthesis.ts`: texts not longer than the limit are a
single chunk; otherwise the loop cuts windows and empty chunks are dropped
(`chunks.filter(chunk => chunk.length > 0)`). -/
def chunkTextForSpeech (text : List Char) (N : Nat) : List (List Char) :=
  if text.length ≤ N then [text]
  else (chunkLoopF text.length text N 0).filter (fun c => 0 < c.length)

/-! ### Facts about the cut position -/

theorem chunkStep_le_window (text : List Char) (N i : Nat)
    (hi : i < text.length) :
    chunkStep text N i ≤ i + N + 1 ∧
    (i + N < chunkStep text N i →
      chunkStep text N i = i + N + 1 ∧
      ∃ t, text.get? (i + N) = some t ∧ isSentenceTerminator t = true) := by
  unfold chunkStep
  by_cases hce : min (i + N) text.length < text.length
  · have hmin : min (i + N) text.length = i + N := by omega
    rw [if_pos hce]
    by_cases hbb : 2 * chunkBestBreak text N i > 2 * (i : Int) + (N : Int)
    · rw [if_pos hbb]
      have hbble : chunkBestBreak text N i ≤ ((min (i + N) text.length : Nat) : Int) :=
        chunkBestBreak_le text N i
      constructor
      · omega
      · intro hgt
        have hbbeq : (chunkBestBreak text N i).toNat = i + N := by omega
        refine ⟨by omega, ?_⟩
        obtain ⟨t, hget, hterm⟩ := chunkBestBreak_get text N i (by omega)
        rw [hbbeq] at hget
        exact ⟨t, hget, hterm⟩
    · rw [if_neg hbb]
      by_cases hwb : 2 * jsLastIndexOf text ' ' (min (i + N) text.length) >
          2 * (i : Int) + (N : Int)
      · rw [if_pos hwb]
        have := jsLastIndexOf_le text ' ' (min (i + N) text.length)
        constructor
        · omega
        · intro hgt
          exfalso
          omega
      · rw [if_neg hwb]
        omega
  · rw [if_neg hce]
    omega

/-! ### Chunk length bound and round-trip lemmas -/

theorem jsSlice_length (text : List Char) (a b : Nat) (hb : b ≤ text.length) :
    (jsSlice text a b).length = b - a := by
  unfold jsSlice
  simp only [List.length_take, List.length_drop]
  omega

theorem jsSlice_getLast (text : List Char) (a b : Nat)
    (ha : a < b) (hb : b ≤ text.length) :
    (jsSlice text a b).getLast? = text.get? (b - 1) := by
  have hlen : (jsSlice text a b).length = b - a := jsSlice_length text a b hb
  rw [List.getLast?_eq_getElem?, hlen]
  unfold jsSlice
  rw [List.getElem?_take_of_lt (by omega), List.getElem?_drop,
    List.get?_eq_getElem?]
  congr 1
  omega

theorem chunkLoopF_length_bound (fuel : Nat) (text : List Char) (N i : Nat)
    (hN : 0 < N) :
    ∀ c ∈ chunkLoopF fuel text N i, c.length ≤ N + 1 ∧
      (N < c.length → ∃ t, c.getLast? = some t ∧ isSentenceTerminator t = true) := by
  induction fuel generalizing i with
  | zero => intro c hc; simp [chunkLoopF] at hc
  | succ fuel ih =>
    intro c hc
    unfold chunkLoopF at hc
    by_cases hi : i < text.length
    · simp only [hi, if_true, List.mem_cons] at hc
      rcases hc with hc | hc
      · subst hc
        obtain ⟨hprog, hle⟩ := chunkStep_progress text N i hN hi
        obtain ⟨hwin, hterm⟩ := chunkStep_le_window text N i hi
        have hslicelen : (jsSlice text i (chunkStep text N i)).length =
            chunkStep text N i - i := jsSlice_length text i _ hle
        have htriml := jsTrim_length_le (jsSlice text i (chunkStep text N i))
        constructor
        · omega
        · intro hlong
          have heq : (jsTrim (jsSlice text i (chunkStep text N i))).length =
              (jsSlice text i (chunkStep text N i)).length := by omega
          have htr := jsTrim_eq_of_length _ heq
          rw [htr]
          have hstep : chunkStep text N i = i + N + 1 ∧
              ∃ t, text.get? (i + N) = some t ∧ isSentenceTerminator t = true := by
            apply hterm
            omega
          obtain ⟨hstepeq, t, hget, htermt⟩ := hstep
          refine ⟨t, ?_, htermt⟩
          rw [jsSlice_getLast text i _ hprog hle, hstepeq]
          simpa using hget
      · exact ih _ c hc
    · simp [hi] at hc

theorem chunkLoopF_join (fuel : Nat) (text : List Char) (N i : Nat)
    (hN : 0 < N) (hfuel : text.length - i ≤ fuel) :
    ((chunkLoopF fuel text N i).join).Sublist (text.drop i) ∧
    ((chunkLoopF fuel text N i).join).filter (fun c => !isJsWhitespace c) =
      (text.drop i).filter (fun c => !isJsWhitespace c) := by
  induction fuel generalizing i with
  | zero =>
    have : text.length ≤ i := by omega
    rw [List.drop_eq_nil_of_le this]
    simp [chunkLoopF]
  | succ fuel ih =>
    by_cases hi : i < text.length
    · obtain ⟨hprog, hle⟩ := chunkStep_progress text N i hN hi
      have hih := ih (chunkStep text N i) (by omega)
      unfold chunkLoopF
      simp only [hi, if_true, List.join_cons]
      have hsplit : (text.drop i).take (chunkStep text N i - i) ++
          text.drop (chunkStep text N i) = text.drop i := by
        have h1 := List.take_append_drop (chunkStep text N i - i) (text.drop i)
        rw [List.drop_drop] at h1
        have h2 : i + (chunkStep text N i - i) = chunkStep text N i := by omega
        rw [h2] at h1
        exact h1
      have hsub1 : (jsTrim (jsSlice text i (chunkStep text N i))).Sublist
          ((text.drop i).take (chunkStep text N i - i)) := jsTrim_sublist _
      constructor
      · rw [← hsplit]
        exact hsub1.append hih.1
      · rw [← hsplit, List.filter_append, List.filter_append]
        rw [jsTrim_filter _ _ (by intro c h; simp [h])]
        rw [hih.2]
        rfl
    · have : text.length ≤ i := by omega
      rw [List.drop_eq_nil_of_le this]
      unfold chunkLoopF
      simp [Nat.not_lt.mpr this]

theorem join_filter_nonempty (l : List (List Char)) :
    (l.filter (fun c => 0 < c.length)).join = l.join := by
  induction l with
  | nil => rfl
  | cons c rest ih =>
    by_cases hc : 0 < c.length
    · simp [List.filter, hc, ih]
    · have : c = [] := by
        cases c
        · rfl
        · simp at hc
      simp [List.filter, hc, ih, this]

/-- Length of the longest "unbreakable token" of a text: a maximal run of
characters containing neither a sentence terminator (`.`, `?`, `!`) nor a
space — the units the chunker can refuse to split. -/
def maxRunLength (text : List Char) : Nat :=
  (text.foldl
    (fun (p : Nat × Nat) c =>
      if isSentenceTerminator c || c = ' ' then (0, p.2)
      else (p.1 + 1, max p.2 (p.1 + 1)))
    (0, 0)).2

/-- **C1, counterexample.**  The claim "every chunk returned by
`chunkTextForSpeech(text, N)` has length at most `N`, except when a single
unbreakable token is itself longer than `N`" is false as stated: for
`text = "aaaa.bbbb"` and `N = 4`, no unbreakable token is longer than `4`
(the maximal runs are `"aaaa"` and `"bbbb"`), yet the first returned chunk
is `"aaaa."` of length `5 > 4`.  The cause: `text.lastIndexOf('.', chunkEnd)`
also matches a terminator at position `chunkEnd` itself, i.e. one position
past the window, and the cut is made after it. -/
theorem chunkTextForSpeech_length_claim_false :
    maxRunLength ("aaaa.bbbb".toList) ≤ 4 ∧
    chunkTextForSpeech ("aaaa.bbbb".toList) 4 =
      ["aaaa.".toList, "bbbb".toList] ∧
    ∃ c ∈ chunkTextForSpeech ("aaaa.bbbb".toList) 4, 4 < c.length := by
  refine ⟨by decide, by decide, "aaaa.".toList, by decide, by decide⟩

/-- **C1 (amended).**  For every text and every positive `maxChunkSize` `N`,
every chunk returned by `chunkTextForSpeech(text, N)` has length at most
`N + 1`; a chunk longer than `N` (necessarily of length exactly `N + 1`)
occurs only when the cut was made at a sentence terminator sitting exactly
one position past the window, and such a chunk ends in that terminator.
In particular an unbreakable token longer than `N` is split exactly at the
window boundary and never produces a chunk longer than `N`. -/
theorem chunkTextForSpeech_length_bound (text : List Char) (N : Nat)
    (hN : 0 < N) :
    ∀ c ∈ chunkTextForSpeech text N, c.length ≤ N + 1 ∧
      (N < c.length →
        ∃ t, c.getLast? = some t ∧ isSentenceTerminator t = true) := by
  intro c hc
  unfold chunkTextForSpeech at hc
  by_cases h : text.length ≤ N
  · rw [if_pos h] at hc
    simp only [List.mem_singleton] at hc
    subst hc
    exact ⟨by omega, fun h' => absurd h' (by omega)⟩
  · rw [if_neg h] at hc
    exact chunkLoopF_length_bound text.length text N 0 hN c
      (List.mem_filter.mp hc).1

/-- Witness for `chunkTextForSpeech_length_bound` at `text = "aaaa.bbbb"`,
`N = 4`. -/
theorem chunkTextForSpeech_length_bound_witness :
    0 < 4 ∧
    (∀ c ∈ chunkTextForSpeech ("aaaa.bbbb".toList) 4, c.length ≤ 4 + 1 ∧
      (4 < c.length →
        ∃ t, c.getLast? = some t ∧ isSentenceTerminator t = true)) :=
  ⟨by decide, chunkTextForSpeech_length_bound ("aaaa.bbbb".toList) 4 (by decide)⟩

/-- **C2.**  For every text and positive `maxChunkSize` `N`, the
concatenation of all chunks is the original text with only whitespace
characters removed (at the trimmed chunk boundaries): the concatenation is
a sublist of the text (so no character is duplicated or reordered and every
removed character is one of the text's characters), and the two agree after
filtering out whitespace (so no non-whitespace character is lost and every
removed character is whitespace). -/
theorem chunkTextForSpeech_roundtrip (text : List Char) (N : Nat)
    (hN : 0 < N) :
    ((chunkTextForSpeech text N).join).Sublist text ∧
    ((chunkTextForSpeech text N).join).filter (fun c => !isJsWhitespace c) =
      text.filter (fun c => !isJsWhitespace c) := by
  unfold chunkTextForSpeech
  by_cases h : text.length ≤ N
  · rw [if_pos h]
    constructor
    · simp
    · simp
  · rw [if_neg h, join_filter_nonempty]
    have := chunkLoopF_join text.length text N 0 hN (by omega)
    simpa using this

/-- Witness for `chunkTextForSpeech_roundtrip` at `text = "ab. cd ef"`,
`N = 4` (the cut points drop the spaces). -/
theorem chunkTextForSpeech_roundtrip_witness :
    0 < 4 ∧
    (((chunkTextForSpeech ("ab. cd ef".toList) 4).join).Sublist
        ("ab. cd ef".toList) ∧
      ((chunkTextForSpeech ("ab. cd ef".toList) 4).join).filter
          (fun c => !isJsWhitespace c) =
        ("ab. cd ef".toList).filter (fun c => !isJsWhitespace c)) :=
  ⟨by decide, chunkTextForSpeech_roundtrip ("ab. cd ef".toList) 4 (by decide)⟩

/-! ## The speech playback engine (`useSpeechSynthesis`)

State-machine embedding of the hook `useSpeechSynthesis` from
`src/hooks/useSpeechSynthesis.ts`.  The React pieces map as follows:

* the `session` state and the refs (`chunksRef`, `currentChunkIndexRef`,
  `accumulatedCharactersRef`, `isChunkedPlaybackRef`, `isStoppingRef`,
  `actionLockRef`) become fields of `EngineState` (`utteranceRef` holds the
  last utterance object and is never read by the control logic, so it is
  not modelled; `lastCancelAtRef` only feeds the `recentlyCanceled` test of
  the error callback, which is modelled as a parameter of that event);
* calls into the ambient `speechSynthesis` collaborator are recorded in an
  action trace (`SpeechAction`); invocations of `startReading` by internal
  callers (the settings-change effect, `resumeReading`) are recorded as a
  `.start` trace marker at the call site;
* `setSession(prev => ...)` functional updates are applied in program
  order;
* in `resumeReading` and the settings-change effect the source sets
  `isStoppingRef` to `true`, cancels, and resets it to `false` on the next
  line; only the net effect (`isStopping = false`) is observable to the
  other single-threaded transitions and the model stores that net effect;
* `setTimeout` continuations (the 50 ms inter-chunk hop, the 120 ms pause
  fallback, the lock release, the 500 ms stop-flag reset) are separate
  events, fired after the operation that scheduled them. -/

/-- The `ReadingSession` react state of `useSpeechSynthesis`. -/
structure ReadingSession where
  content : List Char
  currentPosition : Nat
  isPlaying : Bool
  isPaused : Bool
  totalCharacters : Nat
  deriving Repr, DecidableEq

/-- The `SpeechSettings` state: `rate`, `pitch`, `volume` are opaque scalar
parameters passed through to the collaborator (no arithmetic is performed
on them), a voice is an opaque identifier. -/
structure SpeechSettings where
  rate : Int
  pitch : Int
  volume : Int
  voice : Option Nat
  deriving Repr, DecidableEq

/-- A `Partial<SpeechSettings>` argument of `updateSettings`: present
fields override. -/
structure SettingsPatch where
  rate : Option Int
  pitch : Option Int
  volume : Option Int
  voice : Option Nat
  deriving Repr, DecidableEq

/-- `{ ...prev, ...newSettings }`. -/
def applySettingsPatch (prev : SpeechSettings) (p : SettingsPatch) :
    SpeechSettings :=
  { rate := p.rate.getD prev.rate
    pitch := p.pitch.getD prev.pitch
    volume := p.volume.getD prev.volume
    voice := match p.voice with
      | some v => some v
      | none => prev.voice }

/-- The complete mutable state of the hook. -/
structure EngineState where
  session : ReadingSession
  chunks : List (List Char)
  currentChunkIndex : Nat
  accumulatedCharacters : Nat
  isChunkedPlayback : Bool
  isStopping : Bool
  actionLock : Bool
  deriving Repr, DecidableEq

/-- Calls into the ambient speech-synthesis collaborator, plus a `.start`
marker recorded whenever an internal caller invokes `startReading`. -/
inductive SpeechAction where
  | cancel : SpeechAction
  | pauseCall : SpeechAction
  | speak (chunk : List Char) : SpeechAction
  | start (content : List Char) (fromPosition : Nat) : SpeechAction
  deriving Repr, DecidableEq

/-- The default `maxChunkSize` of `chunkTextForSpeech`. -/
def speechDefaultChunkSize : Nat := 32000

/-- `speakNextChunk` (lines 86-151): when the cursor has exhausted the
chunk list, finish the session (`currentPosition := totalCharacters`, both
flags off, leave chunked-playback mode); otherwise dispatch the current
chunk as one utterance. -/
def speakNextChunk (s : EngineState) : EngineState × List SpeechAction :=
  if s.chunks.length ≤ s.currentChunkIndex then
    ({ s with
        session := { s.session with
          isPlaying := false
          isPaused := false
          currentPosition := s.session.totalCharacters }
        isChunkedPlayback := false }, [])
  else
    (s, [SpeechAction.speak (s.chunks.getD s.currentChunkIndex [])])

/-- `startReading(content, fromPosition = 0)` (lines 153-186).  An empty
`content` string is falsy, so the guard `if (!content) return;` makes the
call a complete no-op. -/
def startReading (s : EngineState) (content : List Char) (fromPosition : Nat) :
    EngineState × List SpeechAction :=
  if content.isEmpty then (s, [])
  else
    let s1 : EngineState :=
      { s with
          isStopping := false
          isChunkedPlayback := true
          chunks := chunkTextForSpeech (content.drop fromPosition)
            speechDefaultChunkSize
          currentChunkIndex := 0
          accumulatedCharacters := fromPosition
          session := { s.session with
            content := content
            isPlaying := true
            isPaused := false
            totalCharacters := content.length
            currentPosition := fromPosition } }
    let r := speakNextChunk s1
    (r.1, SpeechAction.cancel :: r.2)

/-- `pauseReading` (lines 188-216), up to the 120 ms fallback timer
(`pauseFallbackTimer`): under the reentrancy lock, attempt a native pause,
leave chunked-playback mode and flip the session flags to paused. -/
def pauseReading (s : EngineState) : EngineState × List SpeechAction :=
  if s.actionLock then (s, [])
  else
    ({ s with
        actionLock := true
        isChunkedPlayback := false
        session := { s.session with isPlaying := false, isPaused := true } },
      [SpeechAction.pauseCall])

/-- The 120 ms fallback timer scheduled by `pauseReading`: if the
collaborator is neither paused nor speaking-paused, force a cancel (the
stopping flag is raised and lowered around it); then release the lock. -/
def pauseFallbackTimer (s : EngineState)
    (enginePaused engineSpeaking : Bool) : EngineState × List SpeechAction :=
  if !enginePaused && engineSpeaking then
    ({ s with isStopping := false, actionLock := false },
      [SpeechAction.cancel])
  else ({ s with actionLock := false }, [])

/-- `resumeReading` (lines 218-242), up to its 120 ms lock-release timer:
resume is cancel-and-restart at the current position. -/
def resumeReading (s : EngineState) : EngineState × List SpeechAction :=
  if s.session.isPaused && decide (0 < s.chunks.length) then
    if s.actionLock then (s, [])
    else
      let fromPosition := s.session.currentPosition
      let content := s.session.content
      let s1 : EngineState :=
        { s with
            actionLock := true
            isStopping := false
            isChunkedPlayback := false }
      let r := startReading s1 content fromPosition
      ({ r.1 with
          session := { r.1.session with isPlaying := true, isPaused := false } },
        SpeechAction.cancel :: SpeechAction.start content fromPosition :: r.2)
  else (s, [])

/-- The 120 ms timer scheduled by `resumeReading` that releases the lock. -/
def resumeLockTimer (s : EngineState) : EngineState :=
  { s with actionLock := false }

/-- `stopReading` (lines 244-266), up to the 500 ms stopping-flag reset
(`stopTimerReset`): cancel, leave chunked-playback mode, clear the chunk
list and both cursors, reset the session to position `0`, both flags off. -/
def stopReading (s : EngineState) : EngineState × List SpeechAction :=
  ({ s with
      isStopping := true
      isChunkedPlayback := false
      chunks := []
      currentChunkIndex := 0
      accumulatedCharacters := 0
      session := { s.session with
        isPlaying := false
        isPaused := false
        currentPosition := 0 } },
    [SpeechAction.cancel])

/-- The 500 ms timer scheduled by `stopReading` that resets the stopping
flag. -/
def stopTimerReset (s : EngineState) : EngineState :=
  { s with isStopping := false }

/-- The `utterance.onboundary` handler (lines 112-119) for a `word`
boundary event with character index `charIndex`. -/
def onBoundary (s : EngineState) (charIndex : Nat) : EngineState :=
  { s with session := { s.session with
      currentPosition := s.accumulatedCharacters + charIndex } }

/-- The `utterance.onend` handler (lines 121-131) of the utterance that
carried `chunk`: advance the accumulated-character counter and the cursor.
The 50 ms continuation is `onEndTimer`. -/
def onEnd (s : EngineState) (chunk : List Char) : EngineState :=
  { s with
      accumulatedCharacters := s.accumulatedCharacters + chunk.length
      currentChunkIndex := s.currentChunkIndex + 1 }

/-- The 50 ms timer scheduled by `onend`: speak the next chunk only if the
engine is still in chunked-playback mode. -/
def onEndTimer (s : EngineState) : EngineState × List SpeechAction :=
  if s.isChunkedPlayback then speakNextChunk s else (s, [])

/-- The `utterance.onerror` handler (lines 133-147).  `interrupted` tells
whether `event.error === 'interrupted'`; `recentlyCanceled` is the test
`Date.now() - lastCancelAtRef.current < 1000`. -/
def onSpeechError (s : EngineState) (interrupted recentlyCanceled : Bool) :
    EngineState :=
  if interrupted && (s.isStopping || recentlyCanceled) then
    { s with isChunkedPlayback := false }
  else if !s.isStopping && !recentlyCanceled then
    { s with
        isChunkedPlayback := false
        session := { s.session with isPlaying := false, isPaused := false } }
  else { s with isChunkedPlayback := false }

/-- The settings-change effect (lines 273-287), run by React after a
commit in which any of `settings.voice/rate/pitch/volume` changed: while
playing (and not paused), cancel and restart at the current position. -/
def settingsChangedEffect (s : EngineState) : EngineState × List SpeechAction :=
  if s.session.isPlaying && !s.session.isPaused then
    let fromPosition := s.session.currentPosition
    let content := s.session.content
    let s1 : EngineState :=
      { s with isStopping := false, isChunkedPlayback := false }
    let r := startReading s1 content fromPosition
    (r.1, SpeechAction.cancel :: SpeechAction.start content fromPosition :: r.2)
  else (s, [])

/-- One `updateSettings(partial)` call (lines 268-270) together with the
effect it triggers: React re-runs the effect exactly when the merged
settings differ from the previous ones in some dependency field. -/
def updateSettingsAndEffect (s : EngineState) (st : SpeechSettings)
    (p : SettingsPatch) :
    EngineState × SpeechSettings × List SpeechAction :=
  let st' := applySettingsPatch st p
  if st' = st then (s, st', [])
  else
    let r := settingsChangedEffect s
    (r.1, st', r.2)

/-- Recognizer for the `.start` trace marker. -/
def isStartAction : SpeechAction → Bool
  | .start _ _ => true
  | _ => false

/-- Every distinguishable transition of the engine: the public operations,
the settings-change effect, the utterance callbacks, and the timer
continuations. -/
inductive EngineEvent where
  | start (content : List Char) (fromPosition : Nat) : EngineEvent
  | pause : EngineEvent
  | pauseFallback (enginePaused engineSpeaking : Bool) : EngineEvent
  | resume : EngineEvent
  | resumeTimer : EngineEvent
  | stop : EngineEvent
  | stopTimer : EngineEvent
  | settingsEffect : EngineEvent
  | boundary (charIndex : Nat) : EngineEvent
  | utterEnd (chunk : List Char) : EngineEvent
  | endTimer : EngineEvent
  | speechError (interrupted recentlyCanceled : Bool) : EngineEvent
  deriving Repr, DecidableEq

/-- The state reached by one engine transition. -/
def applyEngineEvent (s : EngineState) : EngineEvent → EngineState
  | .start content fromPosition => (startReading s content fromPosition).1
  | .pause => (pauseReading s).1
  | .pauseFallback p sp => (pauseFallbackTimer s p sp).1
  | .resume => (resumeReading s).1
  | .resumeTimer => resumeLockTimer s
  | .stop => (stopReading s).1
  | .stopTimer => stopTimerReset s
  | .settingsEffect => (settingsChangedEffect s).1
  | .boundary ci => onBoundary s ci
  | .utterEnd c => onEnd s c
  | .endTimer => (onEndTimer s).1
  | .speechError i r => onSpeechError s i r

/-- If the text still contains a non-whitespace character, the chunker
returns at least one chunk (used for reasoning about mid-playback
restarts). -/
theorem chunkTextForSpeech_ne_nil (text : List Char) (N : Nat) (hN : 0 < N)
    (h : ∃ c ∈ text, !isJsWhitespace c) :
    chunkTextForSpeech text N ≠ [] := by
  unfold chunkTextForSpeech
  by_cases hlen : text.length ≤ N
  · simp [hlen]
  · rw [if_neg hlen]
    intro hnil
    have hjoin := (chunkLoopF_join text.length text N 0 hN (by omega)).2
    rw [← join_filter_nonempty] at hjoin
    rw [hnil] at hjoin
    simp only [List.join_nil, List.filter_nil, List.drop_zero] at hjoin
    obtain ⟨c, hc, hcw⟩ := h
    have : c ∈ text.filter (fun c => !isJsWhitespace c) :=
      List.mem_filter.mpr ⟨hc, hcw⟩
    rw [← hjoin] at this
    simp at this

/-- The trace of a `startReading` call contains no `.start` marker (those
are only recorded at internal call sites). -/
theorem startReading_no_start_marker (s : EngineState) (content : List Char)
    (fromPosition : Nat) :
    (startReading s content fromPosition).2.filter isStartAction = [] := by
  simp only [startReading, speakNextChunk]
  split_ifs <;> simp [isStartAction]

/-! ### Claims about the engine operations -/

/-- **C3.**  After `stopReading` returns, from any prior engine state:
`currentPosition = 0`, `isPlaying = false`, `isPaused = false`, the chunk
list and both cursors (chunk cursor and accumulated-character counter) are
cleared, and a stale utterance-completion callback (`onend` of a cancelled
utterance followed by its 50 ms timer) firing after the stop dispatches no
further chunk (no collaborator call) and leaves the session unchanged —
the chunked-playback flag, cleared by `stopReading`, gates the
advancement. -/
theorem stopReading_resets (s : EngineState) (staleChunk : List Char) :
    (stopReading s).1.session.currentPosition = 0 ∧
    (stopReading s).1.session.isPlaying = false ∧
    (stopReading s).1.session.isPaused = false ∧
    (stopReading s).1.chunks = [] ∧
    (stopReading s).1.currentChunkIndex = 0 ∧
    (stopReading s).1.accumulatedCharacters = 0 ∧
    (onEndTimer (onEnd (stopReading s).1 staleChunk)).1.session =
      (stopReading s).1.session ∧
    (onEndTimer (onEnd (stopReading s).1 staleChunk)).2 = [] := by
  simp [stopReading, onEnd, onEndTimer]

/-- **C9.**  Every engine transition — the public operations
(`startReading`, `pauseReading`, `resumeReading`, `stopReading`), the
settings-change effect of `updateSettings`, every utterance callback
(`onboundary`, `onend`, `onerror`) and every timer continuation —
preserves the invariant that `session.isPlaying` and `session.isPaused`
are never both true. -/
theorem engine_flags_mutually_exclusive (s : EngineState) (e : EngineEvent)
    (h : ¬(s.session.isPlaying = true ∧ s.session.isPaused = true)) :
    ¬((applyEngineEvent s e).session.isPlaying = true ∧
      (applyEngineEvent s e).session.isPaused = true) := by
  cases e with
  | start content fromPosition =>
    simp only [applyEngineEvent, startReading, speakNextChunk]
    split_ifs <;> simp_all
  | pause =>
    simp only [applyEngineEvent, pauseReading]
    split_ifs <;> simp_all
  | pauseFallback p sp =>
    simp only [applyEngineEvent, pauseFallbackTimer]
    split_ifs <;> simp_all
  | resume =>
    simp only [applyEngineEvent, resumeReading, startReading, speakNextChunk]
    split_ifs <;> simp_all
  | resumeTimer =>
    simp only [applyEngineEvent, resumeLockTimer]
    simp_all
  | stop =>
    simp only [applyEngineEvent, stopReading]
    simp_all
  | stopTimer =>
    simp only [applyEngineEvent, stopTimerReset]
    simp_all
  | settingsEffect =>
    simp only [applyEngineEvent, settingsChangedEffect, startReading,
      speakNextChunk]
    split_ifs <;> simp_all
  | boundary ci =>
    simp only [applyEngineEvent, onBoundary]
    simp_all
  | utterEnd c =>
    simp only [applyEngineEvent, onEnd]
    simp_all
  | endTimer =>
    simp only [applyEngineEvent, onEndTimer, speakNextChunk]
    split_ifs <;> simp_all
  | speechError i r =>
    simp only [applyEngineEvent, onSpeechError]
    split_ifs <;> simp_all

/-- Witness for `engine_flags_mutually_exclusive`: the idle initial state
and a `pauseReading` transition. -/
theorem engine_flags_mutually_exclusive_witness :
    (¬((⟨⟨[], 0, false, false, 0⟩, [], 0, 0, false, false, false⟩ :
        EngineState).session.isPlaying = true ∧
      (⟨⟨[], 0, false, false, 0⟩, [], 0, 0, false, false, false⟩ :
        EngineState).session.isPaused = true)) ∧
    ¬((applyEngineEvent
        ⟨⟨[], 0, false, false, 0⟩, [], 0, 0, false, false, false⟩
        EngineEvent.pause).session.isPlaying = true ∧
      (applyEngineEvent
        ⟨⟨[], 0, false, false, 0⟩, [], 0, 0, false, false, false⟩
        EngineEvent.pause).session.isPaused = true) :=
  ⟨by decide, engine_flags_mutually_exclusive _ EngineEvent.pause (by decide)⟩

/-- **C10.**  From any engine state, `startReading` with empty content is
a complete no-op: the state (session fields, chunk list, cursors, flags)
is unchanged and no collaborator call is made (in particular no
`speechSynthesis.cancel`), so an ongoing playback is not interrupted. -/
theorem startReading_empty_noop (s : EngineState) (fromPosition : Nat) :
    startReading s [] fromPosition = (s, []) := by
  simp [startReading]

/-- **C8.**  A single `updateSettings` call that changes `rate`, `pitch`,
`volume` or `voice` while the engine is playing (not paused) and some
non-whitespace text remains at the current position triggers exactly one
cancel-and-restart — the effect's trace begins with one
`speechSynthesis.cancel` followed by one invocation of
`startReading(session.content, p)` with `p` the pre-change
`currentPosition`, and contains exactly one restart in total — and leaves
the public `isPlaying`/`isPaused` flags with the values they had before
the call. -/
theorem updateSettings_single_restart (s : EngineState)
    (st : SpeechSettings) (p : SettingsPatch)
    (hchanged : applySettingsPatch st p ≠ st)
    (hplay : s.session.isPlaying = true)
    (hpause : s.session.isPaused = false)
    (hleft : ∃ c ∈ s.session.content.drop s.session.currentPosition,
      !isJsWhitespace c) :
    (updateSettingsAndEffect s st p).2.2.take 2 =
      [SpeechAction.cancel,
        SpeechAction.start s.session.content s.session.currentPosition] ∧
    ((updateSettingsAndEffect s st p).2.2.filter isStartAction).length = 1 ∧
    (updateSettingsAndEffect s st p).1.session.isPlaying =
      s.session.isPlaying ∧
    (updateSettingsAndEffect s st p).1.session.isPaused =
      s.session.isPaused := by
  have hcontent : s.session.content ≠ [] := by
    obtain ⟨c, hc, _⟩ := hleft
    intro hnil
    rw [hnil] at hc
    simp at hc
  have hchunks : chunkTextForSpeech
      (s.session.content.drop s.session.currentPosition)
      speechDefaultChunkSize ≠ [] :=
    chunkTextForSpeech_ne_nil _ _ (by norm_num [speechDefaultChunkSize]) hleft
  have hne : s.session.content.isEmpty = false := by
    cases hc : s.session.content with
    | nil => exact absurd hc hcontent
    | cons a t => rfl
  have hchangedF : (applySettingsPatch st p = st) = False := by
    simp [hchanged]
  simp [updateSettingsAndEffect, settingsChangedEffect, startReading,
    speakNextChunk, hchangedF, hplay, hpause, hne, hchunks, isStartAction]

/-- Witness for `updateSettings_single_restart`: playing `"hello world"`
at position `0`, patching `rate` from `1` to `2`. -/
theorem updateSettings_single_restart_witness :
    (applySettingsPatch ⟨1, 1, 1, none⟩ ⟨some 2, none, none, none⟩ ≠
      (⟨1, 1, 1, none⟩ : SpeechSettings)) ∧
    ((⟨⟨"hello world".toList, 0, true, false, 11⟩,
        ["hello world".toList], 0, 0, true, false, false⟩ :
      EngineState).session.isPlaying = true) ∧
    ((⟨⟨"hello world".toList, 0, true, false, 11⟩,
        ["hello world".toList], 0, 0, true, false, false⟩ :
      EngineState).session.isPaused = false) ∧
    (updateSettingsAndEffect
      ⟨⟨"hello world".toList, 0, true, false, 11⟩,
        ["hello world".toList], 0, 0, true, false, false⟩
      ⟨1, 1, 1, none⟩ ⟨some 2, none, none, none⟩).2.2.take 2 =
      [SpeechAction.cancel, SpeechAction.start ("hello world".toList) 0] := by
  refine ⟨by decide, by decide, by decide, ?_⟩
  exact (updateSettings_single_restart
    ⟨⟨"hello world".toList, 0, true, false, 11⟩,
      ["hello world".toList], 0, 0, true, false, false⟩
    ⟨1, 1, 1, none⟩ ⟨some 2, none, none, none⟩
    (by decide) (by decide) (by decide) (by decide)).1

/-! ### Position monotonicity during uninterrupted playback (C4)

During uninterrupted playback the engine state evolves only through
word-boundary callbacks (`onBoundary`), utterance completions (`onEnd`)
and their 50 ms continuations (`onEndTimer`).  `playbackEventStream` is
the event sequence of a complete run over the chunk list, where the `i`-th
chunk's utterance reports the word-boundary character indices `evs[i]`
(an orderly collaborator reports them in non-decreasing order, each within
the utterance's text).  `positionTrace` records
`session.currentPosition` after every event — the observed points. -/

/-- Fold a list of events over the state. -/
def applyEngineEvents (s : EngineState) (es : List EngineEvent) : EngineState :=
  es.foldl applyEngineEvent s

/-- The value of `session.currentPosition` observed after each event. -/
def positionTrace (s : EngineState) : List EngineEvent → List Nat
  | [] => []
  | e :: es =>
    (applyEngineEvent s e).session.currentPosition ::
      positionTrace (applyEngineEvent s e) es

/-- The events of an uninterrupted playback run: for each chunk, its
word-boundary events, then its `onend`, then the 50 ms timer that
dispatches the next chunk (or finishes the session after the last one). -/
def playbackEventStream (pairs : List (List Char × List Nat)) :
    List EngineEvent :=
  (pairs.map (fun pr =>
    pr.2.map EngineEvent.boundary ++
      [EngineEvent.utterEnd pr.1, EngineEvent.endTimer])).join

theorem positionTrace_append (s : EngineState) (xs ys : List EngineEvent) :
    positionTrace s (xs ++ ys) =
      positionTrace s xs ++ positionTrace (applyEngineEvents s xs) ys := by
  induction xs generalizing s with
  | nil => simp [positionTrace, applyEngineEvents]
  | cons x xs ih => simp [positionTrace, applyEngineEvents, List.foldl_cons, ih]

theorem positionTrace_boundaries (s : EngineState) (ev : List Nat) :
    positionTrace s (ev.map EngineEvent.boundary) =
      ev.map (s.accumulatedCharacters + ·) := by
  induction ev generalizing s with
  | nil => rfl
  | cons x rest ih =>
    simp only [List.map_cons, positionTrace, applyEngineEvent, onBoundary, ih]

theorem applyEngineEvents_boundaries (s : EngineState) (ev : List Nat) :
    applyEngineEvents s (ev.map EngineEvent.boundary) =
      { s with session := { s.session with
          currentPosition := (ev.map (s.accumulatedCharacters + ·)).getLastD
            s.session.currentPosition } } := by
  induction ev generalizing s with
  | nil => simp [applyEngineEvents]
  | cons x rest ih =>
    simp only [List.map_cons, applyEngineEvents, List.foldl_cons]
    have h2 := ih (applyEngineEvent s (EngineEvent.boundary x))
    simp only [applyEngineEvents] at h2
    rw [h2]
    simp only [applyEngineEvent, onBoundary, List.getLastD_cons]

theorem chain'_cons_map_add (pos acc : Nat) (ev : List Nat)
    (hpos : pos ≤ acc) (hsorted : List.Chain' (· ≤ ·) ev) :
    List.Chain' (· ≤ ·) (pos :: ev.map (acc + ·)) := by
  rw [List.chain'_cons']
  constructor
  · intro y hy
    cases ev with
    | nil => simp at hy
    | cons x rest =>
      simp only [List.map_cons, List.head?_cons, Option.mem_def,
        Option.some.injEq] at hy
      omega
  · rw [List.chain'_map]
    exact hsorted.imp (fun a b h => by omega)

theorem getLast?_cons_eq_getLastD (d : Nat) (l : List Nat) :
    (d :: l).getLast? = some (l.getLastD d) := by
  induction l generalizing d with
  | nil => rfl
  | cons a t ih =>
    rw [List.getLast?_cons_cons, ih a, List.getLastD_cons]

theorem getLastD_map_add_le (pos acc L : Nat) (ev : List Nat)
    (hpos : pos ≤ acc) (hbound : ∀ x ∈ ev, x ≤ L) :
    (ev.map (acc + ·)).getLastD pos ≤ acc + L := by
  cases hev : ev.getLast? with
  | none =>
    have hnil : ev = [] := List.getLast?_eq_none_iff.mp hev
    subst hnil
    simpa using Nat.le_trans hpos (Nat.le_add_right _ _)
  | some y =>
    have hy : y ∈ ev := mem_of_getLast?_eq hev
    have : (ev.map (acc + ·)).getLastD pos = acc + y := by
      rw [List.getLastD_eq_getLast?, List.getLast?_map, hev]
      rfl
    rw [this]
    exact Nat.add_le_add_left (hbound y hy) acc

/-- The chunks-after-cursor view: during playback the engine state at the
start of each chunk satisfies this shape, where `cks` is the list of
not-yet-finished chunks; the observed positions are non-decreasing and end
at `totalCharacters`. -/
theorem playback_chain (cks : List (List Char)) :
    ∀ (evs : List (List Nat)) (s : EngineState),
    s.chunks.drop s.currentChunkIndex = cks →
    s.isChunkedPlayback = true →
    s.session.currentPosition ≤ s.accumulatedCharacters →
    s.accumulatedCharacters + (cks.map List.length).sum ≤
      s.session.totalCharacters →
    evs.length = cks.length →
    (∀ pr ∈ cks.zip evs, List.Chain' (· ≤ ·) pr.2 ∧
      ∀ x ∈ pr.2, x ≤ pr.1.length) →
    List.Chain' (· ≤ ·) (s.session.currentPosition ::
      positionTrace s (playbackEventStream (cks.zip evs))) ∧
    (cks ≠ [] →
      (s.session.currentPosition ::
        positionTrace s (playbackEventStream (cks.zip evs))).getLast? =
        some s.session.totalCharacters) := by
  induction cks with
  | nil =>
    intro evs s _ _ _ _ hlen _
    have : evs = [] := List.length_eq_zero.mp (by simpa using hlen)
    subst this
    exact ⟨by simp [playbackEventStream, positionTrace], by simp⟩
  | cons c cs ih =>
    intro evs s hchunks hflag hpos htot hlen hsb
    cases evs with
    | nil => simp at hlen
    | cons ev evs' =>
      have hlen' : evs'.length = cs.length := by simpa using hlen
      have hsbhead := hsb (c, ev) (by simp)
      have hsbtail : ∀ pr ∈ cs.zip evs', List.Chain' (· ≤ ·) pr.2 ∧
          ∀ x ∈ pr.2, x ≤ pr.1.length := by
        intro pr hpr
        exact hsb pr (by simp [hpr])
      -- index facts
      have hidx : s.currentChunkIndex < s.chunks.length := by
        by_contra hcon
        rw [List.drop_eq_nil_of_le (by omega)] at hchunks
        exact absurd hchunks.symm (List.cons_ne_nil c cs)
      have hdrop1 : s.chunks.drop (s.currentChunkIndex + 1) = cs := by
        rw [← List.tail_drop, hchunks]
        rfl
      -- the observed boundary positions of this chunk and the carry value
      have hchain1 : List.Chain' (· ≤ ·)
          (s.session.currentPosition ::
            ev.map (s.accumulatedCharacters + ·)) :=
        chain'_cons_map_add _ _ ev hpos hsbhead.1
      have hlast1 : (s.session.currentPosition ::
          ev.map (s.accumulatedCharacters + ·)).getLast? =
          some ((ev.map (s.accumulatedCharacters + ·)).getLastD
            s.session.currentPosition) :=
        getLast?_cons_eq_getLastD _ _
      have hp1le : (ev.map (s.accumulatedCharacters + ·)).getLastD
          s.session.currentPosition ≤ s.accumulatedCharacters + c.length :=
        getLastD_map_add_le _ _ _ ev hpos hsbhead.2
      -- decompose the event stream
      have hstream : playbackEventStream ((c :: cs).zip (ev :: evs')) =
          ev.map EngineEvent.boundary ++
            ([EngineEvent.utterEnd c, EngineEvent.endTimer] ++
              playbackEventStream (cs.zip evs')) := by
        simp [playbackEventStream]
      rw [hstream, positionTrace_append, positionTrace_boundaries,
        applyEngineEvents_boundaries]
      -- the state after this chunk's `onend`
      have hsB : applyEngineEvent
          { s with session := { s.session with
              currentPosition := (ev.map (s.accumulatedCharacters + ·)).getLastD
                s.session.currentPosition } }
          (EngineEvent.utterEnd c) =
          { s with
              session := { s.session with
                currentPosition := (ev.map (s.accumulatedCharacters + ·)).getLastD
                  s.session.currentPosition }
              accumulatedCharacters := s.accumulatedCharacters + c.length
              currentChunkIndex := s.currentChunkIndex + 1 } := rfl
      rw [positionTrace_append]
      set A := ev.map (s.accumulatedCharacters + ·) with hA
      set P := A.getLastD s.session.currentPosition with hP
      by_cases hcs : cs = []
      · -- last chunk: the 50 ms timer finishes the session
        subst hcs
        have hevs' : evs' = [] := List.length_eq_zero.mp (by simpa using hlen')
        subst hevs'
        have hexh : s.chunks.length ≤ s.currentChunkIndex + 1 := by
          have := List.drop_eq_nil_iff.mp hdrop1
          omega
        have htr2 : positionTrace
            { s with session := { s.session with currentPosition := P } }
            [EngineEvent.utterEnd c, EngineEvent.endTimer] =
            [P, s.session.totalCharacters] := by
          simp [positionTrace, applyEngineEvent, onEnd, onEndTimer,
            speakNextChunk, hflag, hexh]
        rw [htr2]
        have hrest : playbackEventStream (([] : List (List Char)).zip
            ([] : List (List Nat))) = [] := rfl
        rw [hrest]
        simp only [positionTrace, List.append_nil]
        have htot' : s.accumulatedCharacters + c.length ≤
            s.session.totalCharacters := by
          simp only [List.map_cons, List.map_nil, List.sum_cons,
            List.sum_nil] at htot
          omega
        constructor
        · have hassoc : s.session.currentPosition ::
              (A ++ [P, s.session.totalCharacters]) =
              (s.session.currentPosition :: A) ++
                [P, s.session.totalCharacters] := rfl
          rw [hassoc]
          refine List.chain'_append.mpr ⟨hchain1, ?_, ?_⟩
          · exact List.chain'_pair.mpr (by omega)
          · intro x hx y hy
            rw [hlast1] at hx
            simp only [Option.mem_def, Option.some.injEq] at hx
            simp only [List.head?_cons, Option.mem_def,
              Option.some.injEq] at hy
            omega
        · intro _
          have hassoc : s.session.currentPosition ::
              (A ++ [P, s.session.totalCharacters]) =
              ((s.session.currentPosition :: A) ++ [P]) ++
                [s.session.totalCharacters] := by
            simp
          rw [hassoc, List.getLast?_concat]
      · -- not the last chunk: the timer dispatches the next chunk
        have hnexh : ¬(s.chunks.length ≤ s.currentChunkIndex + 1) := by
          intro hcon
          exact hcs (by rw [← hdrop1]; exact List.drop_eq_nil_of_le hcon)
        have htr2 : positionTrace
            { s with session := { s.session with currentPosition := P } }
            [EngineEvent.utterEnd c, EngineEvent.endTimer] = [P, P] := by
          simp [positionTrace, applyEngineEvent, onEnd, onEndTimer,
            speakNextChunk, hflag, hnexh]
        rw [htr2]
        have happly : applyEngineEvents
            { s with session := { s.session with currentPosition := P } }
            [EngineEvent.utterEnd c, EngineEvent.endTimer] =
            { s with
                session := { s.session with currentPosition := P }
                accumulatedCharacters := s.accumulatedCharacters + c.length
                currentChunkIndex := s.currentChunkIndex + 1 } := by
          simp [applyEngineEvents, applyEngineEvent, onEnd, onEndTimer,
            speakNextChunk, hflag, hnexh]
        rw [happly]
        have hIH := ih evs'
          { s with
              session := { s.session with currentPosition := P }
              accumulatedCharacters := s.accumulatedCharacters + c.length
              currentChunkIndex := s.currentChunkIndex + 1 }
          (by simpa using hdrop1)
          (by simpa using hflag)
          (by simpa using hp1le)
          (by
            simp only [List.map_cons, List.sum_cons] at htot
            simp only []
            omega)
          hlen' hsbtail
        simp only [] at hIH
        constructor
        · have hassoc : s.session.currentPosition ::
              (A ++ ([P, P] ++ positionTrace
                { s with
                    session := { s.session with currentPosition := P }
                    accumulatedCharacters := s.accumulatedCharacters + c.length
                    currentChunkIndex := s.currentChunkIndex + 1 }
                (playbackEventStream (cs.zip evs')))) =
              ((s.session.currentPosition :: A) ++ [P]) ++
                (P :: positionTrace
                  { s with
                      session := { s.session with currentPosition := P }
                      accumulatedCharacters := s.accumulatedCharacters + c.length
                      currentChunkIndex := s.currentChunkIndex + 1 }
                  (playbackEventStream (cs.zip evs'))) := by
            simp
          rw [hassoc]
          refine List.chain'_append.mpr ⟨?_, hIH.1, ?_⟩
          · refine List.chain'_append.mpr ⟨hchain1, List.chain'_singleton P, ?_⟩
            intro x hx y hy
            rw [hlast1] at hx
            simp only [Option.mem_def, Option.some.injEq] at hx
            simp only [List.head?_cons, Option.mem_def,
              Option.some.injEq] at hy
            omega
          · intro x hx y hy
            rw [List.getLast?_concat] at hx
            simp only [Option.mem_def, Option.some.injEq] at hx
            simp only [List.head?_cons, Option.mem_def,
              Option.some.injEq] at hy
            omega
        · intro _
          have hassoc : s.session.currentPosition ::
              (A ++ ([P, P] ++ positionTrace
                { s with
                    session := { s.session with currentPosition := P }
                    accumulatedCharacters := s.accumulatedCharacters + c.length
                    currentChunkIndex := s.currentChunkIndex + 1 }
                (playbackEventStream (cs.zip evs')))) =
              ((s.session.currentPosition :: A) ++ [P]) ++
                (P :: positionTrace
                  { s with
                      session := { s.session with currentPosition := P }
                      accumulatedCharacters := s.accumulatedCharacters + c.length
                      currentChunkIndex := s.currentChunkIndex + 1 }
                  (playbackEventStream (cs.zip evs'))) := by
            simp
          rw [hassoc,
            List.getLast?_append_of_ne_nil _ (List.cons_ne_nil _ _)]
          exact hIH.2 hcs

/-- The chunks of a text never hold more characters than the text
(trimming only removes). -/
theorem chunkTextForSpeech_total_length_le (text : List Char) (N : Nat)
    (hN : 0 < N) :
    ((chunkTextForSpeech text N).map List.length).sum ≤ text.length := by
  have hsub : ((chunkTextForSpeech text N).join).Sublist text := by
    unfold chunkTextForSpeech
    by_cases h : text.length ≤ N
    · rw [if_pos h]
      simp
    · rw [if_neg h, join_filter_nonempty]
      simpa using (chunkLoopF_join text.length text N 0 hN (by omega)).1
  have hlen := hsub.length_le
  rw [List.length_join] at hlen
  exact hlen

/-- **C4.**  During uninterrupted playback started by a single
`startReading(content, fromPos)` call (no pause, stop or settings change),
with the collaborator reporting each chunk's word-boundary character
indices in non-decreasing order and within the chunk's text, the sequence of
values taken by `session.currentPosition` — `fromPos` at the start, then
the value observed after every word-boundary event
(`accumulatedCharacters + event.charIndex`), chunk completion and
inter-chunk timer — is non-decreasing at every observed point and ends at
`totalCharacters = content.length` when the chunk list is exhausted. -/
theorem playback_position_monotone (s0 : EngineState) (content : List Char)
    (fromPos : Nat) (evs : List (List Nat))
    (hcontent : content ≠ [])
    (hfrom : fromPos ≤ content.length)
    (hne : chunkTextForSpeech (content.drop fromPos)
      speechDefaultChunkSize ≠ [])
    (hlen : evs.length = (chunkTextForSpeech (content.drop fromPos)
      speechDefaultChunkSize).length)
    (hsb : ∀ pr ∈ (chunkTextForSpeech (content.drop fromPos)
        speechDefaultChunkSize).zip evs,
      List.Chain' (· ≤ ·) pr.2 ∧ ∀ x ∈ pr.2, x ≤ pr.1.length) :
    List.Chain' (· ≤ ·)
      ((startReading s0 content fromPos).1.session.currentPosition ::
        positionTrace (startReading s0 content fromPos).1
          (playbackEventStream ((chunkTextForSpeech (content.drop fromPos)
            speechDefaultChunkSize).zip evs))) ∧
    ((startReading s0 content fromPos).1.session.currentPosition ::
        positionTrace (startReading s0 content fromPos).1
          (playbackEventStream ((chunkTextForSpeech (content.drop fromPos)
            speechDefaultChunkSize).zip evs))).getLast? =
      some content.length := by
  have hempty : content.isEmpty = false := by
    cases content with
    | nil => exact absurd rfl hcontent
    | cons a t => rfl
  have hs1 : (startReading s0 content fromPos).1 =
      { s0 with
          isStopping := false
          isChunkedPlayback := true
          chunks := chunkTextForSpeech (content.drop fromPos)
            speechDefaultChunkSize
          currentChunkIndex := 0
          accumulatedCharacters := fromPos
          session := { s0.session with
            content := content
            isPlaying := true
            isPaused := false
            totalCharacters := content.length
            currentPosition := fromPos } } := by
    simp [startReading, speakNextChunk, hempty, hne]
  rw [hs1]
  have htot : fromPos + ((chunkTextForSpeech (content.drop fromPos)
      speechDefaultChunkSize).map List.length).sum ≤ content.length := by
    have := chunkTextForSpeech_total_length_le (content.drop fromPos)
      speechDefaultChunkSize (by norm_num [speechDefaultChunkSize])
    rw [List.length_drop] at this
    omega
  have := playback_chain
    (chunkTextForSpeech (content.drop fromPos) speechDefaultChunkSize)
    evs
    { s0 with
        isStopping := false
        isChunkedPlayback := true
        chunks := chunkTextForSpeech (content.drop fromPos)
          speechDefaultChunkSize
        currentChunkIndex := 0
        accumulatedCharacters := fromPos
        session := { s0.session with
          content := content
          isPlaying := true
          isPaused := false
          totalCharacters := content.length
          currentPosition := fromPos } }
    (by simp) rfl (by simp) (by simpa using htot) hlen hsb
  exact ⟨this.1, this.2 hne⟩

/-- Witness for `playback_position_monotone`: playing `"hello world"` from
position `0` with word boundaries at `0` and `6`. -/
theorem playback_position_monotone_witness :
    ("hello world".toList ≠ []) ∧
    List.Chain' (· ≤ ·)
      ((startReading
          ⟨⟨[], 0, false, false, 0⟩, [], 0, 0, false, false, false⟩
          ("hello world".toList) 0).1.session.currentPosition ::
        positionTrace (startReading
          ⟨⟨[], 0, false, false, 0⟩, [], 0, 0, false, false, false⟩
          ("hello world".toList) 0).1
          (playbackEventStream ((chunkTextForSpeech
            (("hello world".toList).drop 0) speechDefaultChunkSize).zip
            [[0, 6]]))) := by
  have hsb : ∀ pr ∈ (chunkTextForSpeech
      (("hello world".toList).drop 0) speechDefaultChunkSize).zip [[0, 6]],
      List.Chain' (· ≤ ·) pr.2 ∧ ∀ x ∈ pr.2, x ≤ pr.1.length := by
    intro pr hpr
    have hz : (chunkTextForSpeech (("hello world".toList).drop 0)
        speechDefaultChunkSize).zip [[0, 6]] =
        [("hello world".toList, [0, 6])] := by decide
    rw [hz] at hpr
    simp only [List.mem_singleton] at hpr
    subst hpr
    exact ⟨List.chain'_pair.mpr (by norm_num), by decide⟩
  refine ⟨by decide, ?_⟩
  exact (playback_position_monotone
    ⟨⟨[], 0, false, false, 0⟩, [], 0, 0, false, false, false⟩
    ("hello world".toList) 0 [[0, 6]]
    (by decide) (by decide) (by decide) (by decide) hsb).1

/-! ## Per-page processing of the extraction pipeline

Three page-processing strategies appear in the source:

* the **direct** per-page loop of `extractFromPDF`
  (`src/hooks/useContentExtraction.ts`, lines 325-381), which extracts
  `textContent.items.map(i => i.str).join(' ').trim()` and falls back to
  OCR when the result is empty or shorter than 5 characters;
* the **chunked** processor's `ChunkedFileProcessor.processPdfPageRange`,
  which emits `'\n\n--- Page N ---\n' + items.join(' ')` (no trim) on
  success, and the error marker on a page failure — it has no OCR path;
* the **worker**'s page loop (`src/workers/fileProcessor.worker.ts`,
  lines 77-107), which emits the plain marker with the trimmed text — it
  has no OCR path either.

The PDF and OCR collaborators are abstracted as the page outcome: either a
page-level failure or the list of extracted text items, plus (for the
direct path) the raw OCR recognition result for the rendered page. -/

/-- Shorthand for string literals as `List Char`. -/
def str (s : String) : List Char := s.toList

/-- `items.join(' ')` (JavaScript `Array.prototype.join` with separator). -/
def joinSpace (items : List (List Char)) : List Char :=
  List.intercalate [' '] items

/-- `\n\n--- Page N ---\n`. -/
def pageMarkerPlain (n : Nat) : List Char :=
  str "\n\n--- Page " ++ (Nat.repr n).toList ++ str " ---\n"

/-- `\n\n--- Page N (OCR) ---\n`. -/
def pageMarkerOCR (n : Nat) : List Char :=
  str "\n\n--- Page " ++ (Nat.repr n).toList ++ str " (OCR) ---\n"

/-- `\n\n--- Page N (Error) ---\n[Content could not be extracted]` — the
complete output of a failed page. -/
def pageErrorOutput (n : Nat) : List Char :=
  str "\n\n--- Page " ++ (Nat.repr n).toList ++
    str " (Error) ---\n[Content could not be extracted]"

/-- Outcome of one page under the direct strategy: a page-level failure,
or the extracted text items together with the (raw, untrimmed) OCR
recognition result that the OCR collaborator would produce for the
rendered page (the empty string when recognition fails or the canvas is
unavailable). -/
inductive DirectPageOutcome where
  | pageError : DirectPageOutcome
  | extracted (items : List (List Char)) (ocrRaw : List Char) :
      DirectPageOutcome
  deriving Repr, DecidableEq

/-- One iteration of the direct per-page loop of `extractFromPDF` (lines
325-381): the string appended to `fullText` for page `n`.  The OCR branch
is taken when `!pageText || pageText.length < 5`. -/
def directProcessPage (n : Nat) (o : DirectPageOutcome) : List Char :=
  match o with
  | .pageError => pageErrorOutput n
  | .extracted items ocrRaw =>
    let pageText := jsTrim (joinSpace items)
    if pageText.isEmpty ∨ pageText.length < 5 then
      let ocrText := jsTrim ocrRaw
      if 0 < ocrText.length then pageMarkerOCR n ++ ocrText
      else pageErrorOutput n
    else pageMarkerPlain n ++ pageText

/-- One page of `ChunkedFileProcessor.processPdfPageRange`
(`src/utils/chunkedFileProcessor.ts`, lines 215-240): the extracted items
are joined with spaces (not trimmed) and wrapped in the plain marker; a
page failure yields the error marker.  There is no OCR path. -/
def chunkedProcessPage (n : Nat) (o : Option (List (List Char))) :
    List Char :=
  match o with
  | some items => pageMarkerPlain n ++ joinSpace items
  | none => pageErrorOutput n

/-- One page of the worker's `processPdfInWorker` loop
(`src/workers/fileProcessor.worker.ts`, lines 77-107): the trimmed joined
items wrapped in the plain marker; no OCR path. -/
def workerProcessPage (n : Nat) (o : Option (List (List Char))) :
    List Char :=
  match o with
  | some items => pageMarkerPlain n ++ jsTrim (joinSpace items)
  | none => pageErrorOutput n

/-- **C5, counterexample.**  The per-page OCR-substitution contract does
not hold "for every processing strategy": on a page whose extracted text
is `"ab"` (length `2 < 5`) with OCR yielding `"Recovered text"`, the
direct path produces the OCR marker as claimed, but the chunked strategy
(and likewise the worker) emits the plain `--- Page 1 ---` marker with
the two-character text — it never consults OCR. -/
theorem ocr_substitution_claim_false :
    (jsTrim (joinSpace [str "ab"])).length < 5 ∧
    directProcessPage 1 (.extracted [str "ab"] (str "Recovered text")) =
      pageMarkerOCR 1 ++ str "Recovered text" ∧
    chunkedProcessPage 1 (some [str "ab"]) =
      pageMarkerPlain 1 ++ str "ab" ∧
    chunkedProcessPage 1 (some [str "ab"]) ≠
      pageMarkerOCR 1 ++ str "Recovered text" ∧
    workerProcessPage 1 (some [str "ab"]) ≠
      pageMarkerOCR 1 ++ str "Recovered text" := by
  refine ⟨by decide, by decide, by decide, by decide, by decide⟩

/-- **C5 (amended).**  The OCR-substitution contract holds for the
*direct* strategy only: in the direct per-page loop, a page whose trimmed
extracted text is shorter than 5 characters takes the OCR path and, when
the trimmed OCR output is non-empty, the page's output is the marker line
`--- Page N (OCR) ---` followed by a newline and that output.  The chunked
and worker strategies never invoke OCR: whatever the extracted items are
(however short), they emit the plain `--- Page N ---` marker with the
joined (worker: and trimmed) text. -/
theorem per_page_ocr_contract (n : Nat) (items : List (List Char))
    (ocrRaw : List Char)
    (hshort : (jsTrim (joinSpace items)).length < 5)
    (hocr : 0 < (jsTrim ocrRaw).length) :
    directProcessPage n (.extracted items ocrRaw) =
      pageMarkerOCR n ++ jsTrim ocrRaw ∧
    (∀ its : List (List Char),
      chunkedProcessPage n (some its) = pageMarkerPlain n ++ joinSpace its ∧
      workerProcessPage n (some its) =
        pageMarkerPlain n ++ jsTrim (joinSpace its)) := by
  constructor
  · simp only [directProcessPage]
    rw [if_pos (Or.inr hshort), if_pos hocr]
  · intro its
    exact ⟨rfl, rfl⟩

/-- Witness for `per_page_ocr_contract` at page `1`, extracted text
`"ab"`, OCR output `"Recovered text"`. -/
theorem per_page_ocr_contract_witness :
    (jsTrim (joinSpace [str "ab"])).length < 5 ∧
    0 < (jsTrim (str "Recovered text")).length ∧
    directProcessPage 1 (.extracted [str "ab"] (str "Recovered text")) =
      pageMarkerOCR 1 ++ jsTrim (str "Recovered text") :=
  ⟨by decide, by decide,
    (per_page_ocr_contract 1 [str "ab"] (str "Recovered text")
      (by decide) (by decide)).1⟩

/-! ## `ChunkedFileProcessor.processPdfInChunks`

Embedding of `processPdfInChunks` (`src/utils/chunkedFileProcessor.ts`,
lines 26-95).  The PDF collaborator is the `load` argument: loading either
fails with a message or yields a `PdfDoc` (page count and per-page
outcome).  The trace records, in order, the document load and every page
access; the memory-estimation bookkeeping, progress callbacks and timing
of the source affect neither the produced content nor the access trace and
are not modelled.  `Math.ceil(totalPages / 10)` is `(totalPages + 9) / 10`
and the chunk bounds `chunkIndex*10 + 1 .. min((chunkIndex+1)*10, total)`
are kept literally. -/

/-- A loaded PDF document as seen by the chunked processor: its page count
and the outcome of `getPage(n).getTextContent()` for each page (`none` is
a page-level failure). -/
structure PdfDoc where
  numPages : Nat
  pageItems : Nat → Option (List (List Char))

/-- Observable interactions with the PDF collaborator. -/
inductive PdfAccessEvent where
  | docLoad : PdfAccessEvent
  | pageAccess (n : Nat) : PdfAccessEvent
  deriving Repr, DecidableEq

/-- `MAX_FILE_SIZE = 500 * 1024 * 1024` — the 500 MB hard cap. -/
def MAX_FILE_SIZE : Nat := 500 * 1024 * 1024

/-- `processPdfPageRange(pdf, startPage, endPage)`: pages `startPage` to
`endPage` processed (concurrently in the source, but joined strictly in
page order by `Promise.all`). -/
def processPdfPageRange (pdf : PdfDoc) (startPage endPage : Nat) :
    List Char × List PdfAccessEvent :=
  let pages := List.range' startPage (endPage + 1 - startPage)
  ((pages.map (fun n => chunkedProcessPage n (pdf.pageItems n))).join,
    pages.map PdfAccessEvent.pageAccess)

/-- `ChunkedFileProcessor.processPdfInChunks(file)`: the size guard throws
`File too large. Maximum size is 500MB` before anything else (in
particular before the document is loaded or any page is touched); then
the document is loaded and processed in batches of 10 pages whose results
are concatenated in order.  A load failure is wrapped in
`Chunked processing failed: …` by the surrounding `catch`. -/
def processPdfInChunks (fileSize : Nat)
    (load : Except (List Char) PdfDoc) :
    Except (List Char) (List Char) × List PdfAccessEvent :=
  if MAX_FILE_SIZE < fileSize then
    (.error (str "File too large. Maximum size is 500MB"), [])
  else
    match load with
    | .error msg =>
      (.error (str "Chunked processing failed: " ++ msg),
        [PdfAccessEvent.docLoad])
    | .ok pdf =>
      let totalPages := pdf.numPages
      let pagesPerChunk := 10
      let pageChunks := (totalPages + pagesPerChunk - 1) / pagesPerChunk
      let results := (List.range pageChunks).map (fun chunkIndex =>
        processPdfPageRange pdf (chunkIndex * pagesPerChunk + 1)
          (min ((chunkIndex + 1) * pagesPerChunk) totalPages))
      (.ok ((results.map Prod.fst).join),
        PdfAccessEvent.docLoad :: (results.map Prod.snd).join)

/-- **C6.**  Every file whose reported size exceeds the chunked
processor's 500 MB hard cap is rejected by `processPdfInChunks` with the
explicit size-limit error, with an empty collaborator trace: no PDF
document loading and no page access happens. -/
theorem processPdfInChunks_size_cap (fileSize : Nat)
    (load : Except (List Char) PdfDoc)
    (h : MAX_FILE_SIZE < fileSize) :
    processPdfInChunks fileSize load =
      (.error (str "File too large. Maximum size is 500MB"), []) := by
  unfold processPdfInChunks
  rw [if_pos h]

/-- Witness for `processPdfInChunks_size_cap`: a file reported as 600 MB
(629145600 bytes), even with a loadable 3-page document behind it. -/
theorem processPdfInChunks_size_cap_witness :
    MAX_FILE_SIZE < 629145600 ∧
    processPdfInChunks 629145600 (.ok ⟨3, fun _ => none⟩) =
      (.error (str "File too large. Maximum size is 500MB"), []) :=
  ⟨by norm_num [MAX_FILE_SIZE],
    processPdfInChunks_size_cap 629145600 (.ok ⟨3, fun _ => none⟩)
      (by norm_num [MAX_FILE_SIZE])⟩

/-! ## The content-addressed `FileCache`

Embedding of the `FileCache` class (`src/utils/fileCache.ts`).  A `File`
is its name, reported size and content bytes; `crypto.subtle.digest`
(SHA-256, hex-encoded) is an abstract function of the bytes — every
theorem below holds for an arbitrary `hash` function, which is all the
claims need since identical bytes always hash identically.  The backing
`Map` is an insertion-ordered association list (`Map.set` replaces in
place or appends, as in JavaScript).  `localStorage` persistence and the
periodic age sweep are not modelled (no claim depends on them). -/

/-- A `File` as the cache sees it. -/
structure PdfFile where
  name : List Char
  size : Nat
  bytes : List Nat
  deriving Repr, DecidableEq

/-- A `CacheEntry`. -/
structure CacheEntryM where
  id : List Char
  fileName : List Char
  fileSize : Nat
  fileHash : List Char
  content : List Char
  processingMethod : List Char
  processingTime : Nat
  timestamp : Nat
  accessCount : Nat
  lastAccessed : Nat
  deriving Repr, DecidableEq

/-- The mutable state of the `FileCache` singleton. -/
structure FileCacheState where
  entries : List (List Char × CacheEntryM)
  hits : Nat
  misses : Nat
  deriving Repr, DecidableEq

/-- `maxEntries = 50`. -/
def cacheMaxEntries : Nat := 50

/-- `maxSizeBytes = 100 * 1024 * 1024`. -/
def cacheMaxSizeBytes : Nat := 100 * 1024 * 1024

/-- `generateCacheKey`: `` `${fileName}_${fileSize}_${hash.substring(0, 16)}` ``. -/
def generateCacheKey (fileName : List Char) (fileSize : Nat)
    (fileHash : List Char) : List Char :=
  fileName ++ ('_' :: (Nat.repr fileSize).toList) ++ ('_' :: fileHash.take 16)

/-- `Map.get` on the association list. -/
def cacheLookup (entries : List (List Char × CacheEntryM))
    (k : List Char) : Option CacheEntryM :=
  (entries.find? (fun p => p.1 = k)).map Prod.snd

/-- `Map.set`: replace in place, or append when the key is new. -/
def cacheMapSet (entries : List (List Char × CacheEntryM))
    (k : List Char) (v : CacheEntryM) : List (List Char × CacheEntryM) :=
  if entries.any (fun p => p.1 = k) then
    entries.map (fun p => if p.1 = k then (k, v) else p)
  else entries ++ [(k, v)]

/-- `FileCache.get(file)` (lines 100-124 of the cache source): on a hit,
bump the entry's access counter, stamp `lastAccessed = Date.now()` (the
`now` argument) and count a hit; on a miss count a miss. -/
def fileCacheGet (hash : List Nat → List Char) (st : FileCacheState)
    (f : PdfFile) (now : Nat) : Option CacheEntryM × FileCacheState :=
  let k := generateCacheKey f.name f.size (hash f.bytes)
  match cacheLookup st.entries k with
  | some e =>
    let e2 : CacheEntryM :=
      { e with accessCount := e.accessCount + 1, lastAccessed := now }
    (some e2,
      { st with entries := cacheMapSet st.entries k e2, hits := st.hits + 1 })
  | none => (none, { st with misses := st.misses + 1 })

/-- `getCurrentSize`: the summed content lengths. -/
def cacheCurrentSize (entries : List (List Char × CacheEntryM)) : Nat :=
  (entries.map (fun p => p.2.content.length)).sum

/-- The `evictLeastUsed` comparator: access count ascending, then last
accessed ascending. -/
def entryLe (a b : CacheEntryM) : Bool :=
  decide (a.accessCount < b.accessCount) ||
  (decide (a.accessCount = b.accessCount) &&
    decide (a.lastAccessed ≤ b.lastAccessed))

/-- Stable insertion of `x` after every element `y` with `le y x`. -/
def insertLe {α : Type} (le : α → α → Bool) (x : α) : List α → List α
  | [] => [x]
  | y :: ys => if le y x then y :: insertLe le x ys else x :: y :: ys

/-- A stable sort (`Array.prototype.sort` is stable). -/
def sortLe {α : Type} (le : α → α → Bool) : List α → List α
  | [] => []
  | x :: xs => insertLe le x (sortLe le xs)

/-- `evictLeastUsed` (lines 185-204): sort a copy by
`(accessCount asc, lastAccessed asc)` and delete the least-valuable 25 %
(at least one) from the map; surviving entries keep their order. -/
def evictLeastUsed (entries : List (List Char × CacheEntryM)) :
    List (List Char × CacheEntryM) :=
  let sorted := sortLe (fun a b => entryLe a.2 b.2) entries
  let entriesToRemove := max 1 (entries.length / 4)
  let removedKeys := (sorted.take entriesToRemove).map Prod.fst
  entries.filter (fun p => !(removedKeys.contains p.1))

/-- `ensureSpace` (lines 166-173). -/
def ensureSpace (entries : List (List Char × CacheEntryM))
    (newContentSize : Nat) : List (List Char × CacheEntryM) :=
  if cacheMaxEntries ≤ entries.length ∨
      cacheMaxSizeBytes < cacheCurrentSize entries + newContentSize then
    evictLeastUsed entries
  else entries

/-- `FileCache.set(file, content, method, processingTime)` (lines
127-163): build the entry (`accessCount = 1`, both timestamps `now`),
make space, store under the content-addressed key. -/
def fileCacheSet (hash : List Nat → List Char) (st : FileCacheState)
    (f : PdfFile) (content : List Char) (method : List Char)
    (ptime : Nat) (now : Nat) : FileCacheState :=
  let k := generateCacheKey f.name f.size (hash f.bytes)
  let entry : CacheEntryM :=
    { id := k
      fileName := f.name
      fileSize := f.size
      fileHash := hash f.bytes
      content := content
      processingMethod := method
      processingTime := ptime
      timestamp := now
      accessCount := 1
      lastAccessed := now }
  { st with
      entries :=
        cacheMapSet (ensureSpace st.entries content.length) k entry }

/-- `FileCache.shouldCache(file)`: `1 ≤ fileSizeMB ≤ 50`, i.e.
`1048576 ≤ size ≤ 52428800` bytes (size/2^20 compares exactly on
doubles). -/
def shouldCache (size : Nat) : Bool :=
  decide (1048576 ≤ size) && decide (size ≤ 52428800)

/-! ## `extractFromPDF` strategy selection and cache-first control flow

Embedding of `extractFromPDF` (`src/hooks/useContentExtraction.ts`,
lines 146-492).  The three processing strategies are collaborators
(`Extractors`): the worker (`processPdfWithWorker`) and the chunked
processor either succeed with extracted content or fail, the direct
pdfjs path succeeds or throws a message.  The trace records which
strategies actually ran — a cache hit runs none.  Progress reporting,
object-URL bookkeeping and the console logs are not modelled.  In the
source, after a failed recovery the interim "Primary extraction failed"
message is always overwritten by the classification chain (the chain
ends in an unconditional `else`), so both direct-failure exits surface
`classifyPdfError` of the original message. -/

/-- Which strategy implementations actually executed. -/
inductive ExtractEvent where
  | workerRun : ExtractEvent
  | chunkedRun : ExtractEvent
  | directRun : ExtractEvent
  deriving Repr, DecidableEq

/-- The three strategy collaborators, as deterministic functions of the
file. -/
structure Extractors where
  worker : PdfFile → Option (List Char)
  chunked : PdfFile → Option (List Char)
  direct : PdfFile → Except (List Char) (List Char)

/-- Result of one `extractFromPDF` call: the resolved content or thrown
message, the cache state afterwards, and the strategies that ran. -/
structure ExtractResult where
  result : Except (List Char) (List Char)
  cache : FileCacheState
  events : List ExtractEvent
  deriving Repr

/-- `shouldUseWorker` from `useWorkerFileProcessor`: `fileSizeMB > 5`. -/
def shouldUseWorker (size : Nat) : Bool := decide (5242880 < size)

/-- `10 < fileSizeMB ≤ 25`. -/
def useChunkedProcessing (size : Nat) : Bool :=
  decide (10485760 < size) && decide (size ≤ 26214400)

/-- `fileSizeMB > 25`. -/
def useWorkerForVeryLarge (size : Nat) : Bool := decide (26214400 < size)

/-- `preferWorker = useWorkerForVeryLarge || useChunkedProcessing ||
useWorkerProcessing || fileSizeMB >= 10`. -/
def preferWorker (size : Nat) : Bool :=
  useWorkerForVeryLarge size || useChunkedProcessing size ||
    shouldUseWorker size || decide (10485760 ≤ size)

/-- Bool test whether `needle` occurs inside `hay`
(`String.prototype.includes`). -/
def containsSub (needle hay : List Char) : Bool :=
  hay.tails.any (fun t => needle.isPrefixOf t)

/-- The recovery trigger (line 410): the lowered message mentions
`worker`, `memory` or `timeout`. -/
def isRecoverableMsg (msg : List Char) : Bool :=
  let m := msg.map Char.toLower
  containsSub (str "worker") m || containsSub (str "memory") m ||
    containsSub (str "timeout") m

/-- The error-classification chain of the `catch` block (lines 457-475). -/
def classifyPdfError (msg : List Char) : List Char :=
  let m := msg.map Char.toLower
  if containsSub (str "invalid pdf") m || containsSub (str "corrupted") m ||
      containsSub (str "not a pdf") m then
    str "The file appears to be corrupted or is not a valid PDF"
  else if containsSub (str "password") m || containsSub (str "encrypted") m then
    str "This PDF is password-protected. Please provide an unprotected version"
  else if containsSub (str "worker") m || containsSub (str "script") m ||
      containsSub (str "loading failed") m then
    str "PDF processing engine failed to load. Please refresh the page and try again"
  else if containsSub (str "network") m || containsSub (str "fetch") m ||
      containsSub (str "connection") m then
    str "Network error occurred. Please check your internet connection and try again"
  else if containsSub (str "attempts") m || containsSub (str "incompatible") m then
    str "This PDF format is not supported or the file is corrupted"
  else if containsSub (str "no text content") m then
    str "This PDF contains no extractable text. It may be image-based or scanned"
  else if containsSub (str "memory") m then
    str "PDF processing failed due to memory constraints: " ++ msg ++
      str ". Try processing a smaller file or restart the application."
  else if containsSub (str "timeout") m then
    str "PDF processing timed out: " ++ msg ++
      str ". Try processing a smaller file or check your internet connection."
  else str "PDF processing failed: " ++ msg

/-- The direct-processing tail of `extractFromPDF` (lines 292-399 and the
`catch` block): run the direct pdfjs path; on success return **without
writing to the cache** (the direct path has no `fileCache.set` call); on
a worker/memory/timeout failure attempt one recovery pass through the
chunked processor (which does cache on success). -/
def directPhase (hash : List Nat → List Char) (ex : Extractors)
    (st : FileCacheState) (f : PdfFile) (now : Nat)
    (evs : List ExtractEvent) : ExtractResult :=
  match ex.direct f with
  | .ok c => ⟨.ok c, st, evs ++ [ExtractEvent.directRun]⟩
  | .error msg =>
    if isRecoverableMsg msg then
      match ex.chunked f with
      | some c =>
        ⟨.ok c,
          (if shouldCache f.size then
            fileCacheSet hash st f c (str "chunked") 0 now else st),
          evs ++ [ExtractEvent.directRun, ExtractEvent.chunkedRun]⟩
      | none =>
        ⟨.error (classifyPdfError msg), st,
          evs ++ [ExtractEvent.directRun, ExtractEvent.chunkedRun]⟩
    else ⟨.error (classifyPdfError msg), st, evs ++ [ExtractEvent.directRun]⟩

/-- The chunked-processing block of `extractFromPDF` (lines 243-290): on
success cache (`'chunked'`) and return; on failure fall through to direct
processing. -/
def chunkedPhase (hash : List Nat → List Char) (ex : Extractors)
    (st : FileCacheState) (f : PdfFile) (now : Nat)
    (evs : List ExtractEvent) : ExtractResult :=
  match ex.chunked f with
  | some c =>
    ⟨.ok c,
      (if shouldCache f.size then
        fileCacheSet hash st f c (str "chunked") 0 now else st),
      evs ++ [ExtractEvent.chunkedRun]⟩
  | none => directPhase hash ex st f now (evs ++ [ExtractEvent.chunkedRun])

/-- The strategy cascade of `extractFromPDF` after the cache check
(lines 187-399): worker first when `preferWorker`, then the chunked
block (whose guard `useChunkedProcessing || useWorkerForVeryLarge ||
preferWorker` is kept literally), then direct processing. -/
def extractFromPDFCore (hash : List Nat → List Char) (ex : Extractors)
    (st : FileCacheState) (f : PdfFile) (now : Nat) : ExtractResult :=
  if preferWorker f.size then
    match ex.worker f with
    | some c =>
      ⟨.ok c,
        (if shouldCache f.size then
          fileCacheSet hash st f c (str "worker") 0 now else st),
        [ExtractEvent.workerRun]⟩
    | none => chunkedPhase hash ex st f now [ExtractEvent.workerRun]
  else if useChunkedProcessing f.size || useWorkerForVeryLarge f.size ||
      preferWorker f.size then
    chunkedPhase hash ex st f now []
  else directPhase hash ex st f now []

/-- `extractFromPDF(file)` (lines 146-492): for cacheable files the cache
is consulted first and a hit returns the stored content immediately —
before any strategy runs. -/
def extractFromPDF (hash : List Nat → List Char) (ex : Extractors)
    (st : FileCacheState) (f : PdfFile) (now : Nat) : ExtractResult :=
  if shouldCache f.size then
    match fileCacheGet hash st f now with
    | (some e, st1) => ⟨.ok e.content, st1, []⟩
    | (none, st1) => extractFromPDFCore hash ex st1 f now
  else extractFromPDFCore hash ex st f now

/-! ### Association-list lemmas for the cache map -/

theorem cacheLookup_cons (q : List Char × CacheEntryM)
    (rest : List (List Char × CacheEntryM)) (k : List Char) :
    cacheLookup (q :: rest) k =
      if q.1 = k then some q.2 else cacheLookup rest k := by
  unfold cacheLookup
  by_cases h : q.1 = k <;> simp [List.find?, h]

theorem cacheLookup_mapSet_self (k : List Char) (v : CacheEntryM) :
    ∀ entries, cacheLookup (cacheMapSet entries k v) k = some v := by
  intro entries
  induction entries with
  | nil => simp [cacheMapSet, cacheLookup, List.find?]
  | cons p rest ih =>
    by_cases hp : p.1 = k
    · simp [cacheMapSet, hp, cacheLookup_cons]
    · by_cases hr : rest.any (fun q => q.1 = k)
      · simp [cacheMapSet, hr] at ih
        simp [cacheMapSet, hp, hr, cacheLookup_cons, ih]
      · simp [cacheMapSet, hr] at ih
        simp [cacheMapSet, hp, hr, cacheLookup_cons, ih]

theorem cacheLookup_map_replace_ne
    (entries : List (List Char × CacheEntryM)) (k : List Char)
    (v : CacheEntryM) (k' : List Char) (h : k' ≠ k) :
    cacheLookup (entries.map (fun p => if p.1 = k then (k, v) else p)) k' =
      cacheLookup entries k' := by
  induction entries with
  | nil => rfl
  | cons p rest ih =>
    by_cases hp : p.1 = k
    · have hkk : ¬((k, v).1 = k') := fun hc => h hc.symm
      simp only [List.map_cons, hp, if_true]
      rw [cacheLookup_cons, cacheLookup_cons]
      rw [if_neg hkk, if_neg (by rw [hp]; exact fun hc => h hc.symm)]
      exact ih
    · simp only [List.map_cons, hp, if_false]
      rw [cacheLookup_cons, cacheLookup_cons]
      by_cases hpk : p.1 = k'
      · rw [if_pos hpk, if_pos hpk]
      · rw [if_neg hpk, if_neg hpk]
        exact ih

theorem cacheLookup_append_single_ne
    (entries : List (List Char × CacheEntryM)) (k : List Char)
    (v : CacheEntryM) (k' : List Char) (h : k' ≠ k) :
    cacheLookup (entries ++ [(k, v)]) k' = cacheLookup entries k' := by
  induction entries with
  | nil =>
    simp only [List.nil_append]
    rw [cacheLookup_cons, if_neg (fun hc => h hc.symm)]
  | cons p rest ih =>
    simp only [List.cons_append]
    rw [cacheLookup_cons, cacheLookup_cons]
    by_cases hpk : p.1 = k'
    · rw [if_pos hpk, if_pos hpk]
    · rw [if_neg hpk, if_neg hpk]
      exact ih

theorem cacheLookup_mapSet_ne (entries : List (List Char × CacheEntryM))
    (k : List Char) (v : CacheEntryM) (k' : List Char) (h : k' ≠ k) :
    cacheLookup (cacheMapSet entries k v) k' = cacheLookup entries k' := by
  unfold cacheMapSet
  by_cases hany : entries.any (fun p => p.1 = k)
  · rw [if_pos hany]
    exact cacheLookup_map_replace_ne entries k v k' h
  · rw [if_neg hany]
    exact cacheLookup_append_single_ne entries k v k' h

/-- A cache hit short-circuits `extractFromPDF`: for a cacheable file
whose key is present, the call returns the stored content, runs no
strategy, and only bumps the entry's access statistics (plus the global
hit counter). -/
theorem extractFromPDF_hit (hash : List Nat → List Char) (ex : Extractors)
    (stc : FileCacheState) (f : PdfFile) (t : Nat) (e : CacheEntryM)
    (hsc : shouldCache f.size = true)
    (hl : cacheLookup stc.entries
      (generateCacheKey f.name f.size (hash f.bytes)) = some e) :
    extractFromPDF hash ex stc f t =
      ⟨.ok e.content,
        { stc with
            entries := cacheMapSet stc.entries
              (generateCacheKey f.name f.size (hash f.bytes))
              { e with accessCount := e.accessCount + 1, lastAccessed := t }
            hits := stc.hits + 1 },
        []⟩ := by
  simp [extractFromPDF, hsc, fileCacheGet, hl]

/-- **C7, counterexample.**  "For every cacheable file (1 MB–50 MB), a
second `extractFromPDF` on the same bytes is a cache hit with no page
processing" is false: a cacheable 2 MB file (2097152 bytes) is below every
worker/chunked threshold, so its first (successful) extraction runs the
direct path — which contains no `fileCache.set` call.  Nothing is cached,
and the second call on the identical file runs the direct strategy again
instead of hitting the cache. -/
theorem cache_idempotence_claim_false :
    shouldCache (2097152 : Nat) = true ∧
    (extractFromPDF (fun _ => [])
      ⟨fun _ => none, fun _ => none, fun _ => .ok (str "X")⟩
      ⟨[], 0, 0⟩ ⟨str "a.pdf", 2097152, [0]⟩ 0).result = .ok (str "X") ∧
    (extractFromPDF (fun _ => [])
      ⟨fun _ => none, fun _ => none, fun _ => .ok (str "X")⟩
      ⟨[], 0, 0⟩ ⟨str "a.pdf", 2097152, [0]⟩ 0).cache.entries = [] ∧
    (extractFromPDF (fun _ => [])
      ⟨fun _ => none, fun _ => none, fun _ => .ok (str "X")⟩
      (extractFromPDF (fun _ => [])
        ⟨fun _ => none, fun _ => none, fun _ => .ok (str "X")⟩
        ⟨[], 0, 0⟩ ⟨str "a.pdf", 2097152, [0]⟩ 0).cache
      ⟨str "a.pdf", 2097152, [0]⟩ 1).events = [ExtractEvent.directRun] := by
  refine ⟨by decide, ?_, ?_, ?_⟩ <;> rfl

/-- **C7 (amended).**  For every cacheable file whose first extraction is
served by a cache-writing strategy — the worker, the chunked fallback
after a worker failure, or the chunked recovery pass after a recoverable
direct failure (the only exits with a `fileCache.set` call) — a second
`extractFromPDF` call on a file with identical name, size and content
bytes is a cache hit: it returns the same content, runs no processing
strategy at all, and changes the cache entries only at that file's key,
where exactly the access counter is incremented and the last-accessed
stamp updated.  (The cache's global hit/miss statistics also move; files
whose first extraction succeeded via the plain direct path are never
cached and are fully reprocessed.) -/
theorem cache_idempotence_worker_chunked (hash : List Nat → List Char)
    (ex : Extractors) (st0 : FileCacheState) (f fb : PdfFile)
    (t1 t2 : Nat) (c : List Char)
    (hcache : shouldCache f.size = true)
    (hsame : fb.name = f.name ∧ fb.size = f.size ∧ fb.bytes = f.bytes)
    (hmiss : cacheLookup st0.entries
      (generateCacheKey f.name f.size (hash f.bytes)) = none)
    (hstrategy :
      (preferWorker f.size = true ∧
        (ex.worker f = some c ∨
          (ex.worker f = none ∧ ex.chunked f = some c))) ∨
      (preferWorker f.size = false ∧
        (∃ msg, ex.direct f = Except.error msg ∧
          isRecoverableMsg msg = true) ∧
        ex.chunked f = some c)) :
    (extractFromPDF hash ex st0 f t1).result = .ok c ∧
    (extractFromPDF hash ex (extractFromPDF hash ex st0 f t1).cache
      fb t2).result = .ok c ∧
    (extractFromPDF hash ex (extractFromPDF hash ex st0 f t1).cache
      fb t2).events = [] ∧
    (∃ e, cacheLookup (extractFromPDF hash ex st0 f t1).cache.entries
        (generateCacheKey f.name f.size (hash f.bytes)) = some e ∧
      e.content = c ∧
      cacheLookup (extractFromPDF hash ex (extractFromPDF hash ex st0 f t1).cache
          fb t2).cache.entries
        (generateCacheKey f.name f.size (hash f.bytes)) =
        some { e with
          accessCount := e.accessCount + 1
          lastAccessed := t2 }) ∧
    (∀ k', k' ≠ generateCacheKey f.name f.size (hash f.bytes) →
      cacheLookup (extractFromPDF hash ex (extractFromPDF hash ex st0 f t1).cache
          fb t2).cache.entries k' =
        cacheLookup (extractFromPDF hash ex st0 f t1).cache.entries k') := by
  have hkey : generateCacheKey fb.name fb.size (hash fb.bytes) =
      generateCacheKey f.name f.size (hash f.bytes) := by
    rw [hsame.1, hsame.2.1, hsame.2.2]
  have hget1 : fileCacheGet hash st0 f t1 =
      (none, { st0 with misses := st0.misses + 1 }) := by
    simp [fileCacheGet, hmiss]
  -- looking up the key right after a `fileCacheSet` yields the fresh entry
  have hsetlook : ∀ (st : FileCacheState) (method : List Char),
      cacheLookup (fileCacheSet hash st f c method 0 t1).entries
        (generateCacheKey f.name f.size (hash f.bytes)) =
      some { id := generateCacheKey f.name f.size (hash f.bytes)
             fileName := f.name
             fileSize := f.size
             fileHash := hash f.bytes
             content := c
             processingMethod := method
             processingTime := 0
             timestamp := t1
             accessCount := 1
             lastAccessed := t1 } := by
    intro st method
    simp only [fileCacheSet]
    exact cacheLookup_mapSet_self _ _ _
  -- the first call resolves with `c` and stores it under the file's key,
  -- on each of the three cache-writing routes
  have hfirst : (extractFromPDF hash ex st0 f t1).result = .ok c ∧
      ∃ e, cacheLookup (extractFromPDF hash ex st0 f t1).cache.entries
        (generateCacheKey f.name f.size (hash f.bytes)) = some e ∧
        e.content = c := by
    rcases hstrategy with ⟨hpw, hw | ⟨hw, hc⟩⟩ | ⟨hpw, ⟨msg, hdir, hrec⟩, hc⟩
    · -- worker success
      have hr1 : extractFromPDF hash ex st0 f t1 =
          ⟨.ok c,
            fileCacheSet hash { st0 with misses := st0.misses + 1 } f c
              (str "worker") 0 t1,
            [ExtractEvent.workerRun]⟩ := by
        simp [extractFromPDF, extractFromPDFCore, hcache, hget1, hpw, hw]
      rw [hr1]
      exact ⟨rfl, _, hsetlook _ _, rfl⟩
    · -- worker failure, chunked fallback success
      have hr1 : extractFromPDF hash ex st0 f t1 =
          ⟨.ok c,
            fileCacheSet hash { st0 with misses := st0.misses + 1 } f c
              (str "chunked") 0 t1,
            [ExtractEvent.workerRun, ExtractEvent.chunkedRun]⟩ := by
        simp [extractFromPDF, extractFromPDFCore, chunkedPhase, hcache,
          hget1, hpw, hw, hc]
      rw [hr1]
      exact ⟨rfl, _, hsetlook _ _, rfl⟩
    · -- direct failure with recoverable message, chunked recovery success
      have hvl : useWorkerForVeryLarge f.size = false := by
        have h2 := hpw
        unfold preferWorker at h2
        cases h : useWorkerForVeryLarge f.size
        · rfl
        · rw [h] at h2
          simp at h2
      have hcu : useChunkedProcessing f.size = false := by
        have h2 := hpw
        unfold preferWorker at h2
        cases h : useChunkedProcessing f.size
        · rfl
        · rw [h] at h2
          simp at h2
      have hr1 : extractFromPDF hash ex st0 f t1 =
          ⟨.ok c,
            fileCacheSet hash { st0 with misses := st0.misses + 1 } f c
              (str "chunked") 0 t1,
            [ExtractEvent.directRun, ExtractEvent.chunkedRun]⟩ := by
        simp [extractFromPDF, extractFromPDFCore, directPhase, hcache,
          hget1, hpw, hvl, hcu, hdir, hrec, hc]
      rw [hr1]
      exact ⟨rfl, _, hsetlook _ _, rfl⟩
  obtain ⟨hres1, e1, hlook1, hcont1⟩ := hfirst
  have hscb : shouldCache fb.size = true := by rw [hsame.2.1]; exact hcache
  have hr2 := extractFromPDF_hit hash ex (extractFromPDF hash ex st0 f t1).cache
    fb t2 e1 hscb (by rw [hkey]; exact hlook1)
  refine ⟨hres1, ?_, ?_, ?_, ?_⟩
  · rw [hr2, hcont1]
  · rw [hr2]
  · refine ⟨e1, hlook1, hcont1, ?_⟩
    rw [hr2]
    simp only [hkey]
    exact cacheLookup_mapSet_self _ _ _
  · intro k' hk'
    rw [hr2]
    simp only [hkey]
    exact cacheLookup_mapSet_ne _ _ _ _ hk'

/-- Witness for `cache_idempotence_worker_chunked`: a 6 MB file whose
worker extraction yields `"W"`. -/
theorem cache_idempotence_worker_chunked_witness :
    shouldCache (6291456 : Nat) = true ∧
    preferWorker (6291456 : Nat) = true ∧
    (extractFromPDF (fun _ => str "h")
      ⟨fun _ => some (str "W"), fun _ => none, fun _ => .error []⟩
      ⟨[], 0, 0⟩ ⟨str "b.pdf", 6291456, [1]⟩ 10).result = .ok (str "W") ∧
    (extractFromPDF (fun _ => str "h")
      ⟨fun _ => some (str "W"), fun _ => none, fun _ => .error []⟩
      (extractFromPDF (fun _ => str "h")
        ⟨fun _ => some (str "W"), fun _ => none, fun _ => .error []⟩
        ⟨[], 0, 0⟩ ⟨str "b.pdf", 6291456, [1]⟩ 10).cache
      ⟨str "b.pdf", 6291456, [1]⟩ 11).events = [] := by
  have h := cache_idempotence_worker_chunked (fun _ => str "h")
    ⟨fun _ => some (str "W"), fun _ => none, fun _ => .error []⟩
    ⟨[], 0, 0⟩ ⟨str "b.pdf", 6291456, [1]⟩ ⟨str "b.pdf", 6291456, [1]⟩
    10 11 (str "W")
    (by decide) ⟨rfl, rfl, rfl⟩ rfl (Or.inl ⟨by decide, Or.inl rfl⟩)
  exact ⟨by decide, by decide, h.1, h.2.2.1⟩

end ReaDis
